import Mathlib

/-!
# Logarithmic-linear histograms (`llh.h`)

A shallow embedding of `src/include/llh.h` and a verification of its contract.

* `uint64_t` and `uint32_t` quantities are natural numbers; wrap-around is written
  out (`% 2 ^ 32` for the counter increment, `% 2 ^ 64` for the accumulators).
* `struct _llh` is a table of counters indexed by `Fin 24` and `Fin 16`, together
  with the overflow counter.
* `llh_record` is a function from the old state and the value to the new state; the
  expressions for the bucket (llh.h:116) and the slot (llh.h:131-134) are named
  `llh_record_bucket` and `llh_record_slot`.
* `__builtin_clzll` and `__builtin_ctz` count zero bits one position at a time.
* The three overloads of `llh_population_get` are `llh_population_get`,
  `llh_population_get_bucket` and `llh_population_get_bucket_slot`.
* `llh_record_checked` and the `_int` versions of the geometry macros repeat the
  computations with the undefined cases of C made explicit (`Option`).
* `llh_record_mode` is `llh_record` under the compile-time switch
  `LLH_UNSAFE_INCREMENT`; `naive_log2` is the halving loop that the bit scan replaces.
-/

namespace LLH

/-! ## Constants and geometry macros -/

/-- The macro `LLH_BUCKETS` (llh.h:33). -/
abbrev LLH_BUCKETS : Nat := 24

/-- The macro `LLH_SLOTS_PER_BUCKET` (llh.h:36). -/
abbrev LLH_SLOTS_PER_BUCKET : Nat := 16

/-- Count of zero bits below the lowest set bit of `x`, looking at `n` bits at most. -/
def ctz_bits (x : Nat) : Nat → Nat
  | 0 => 0
  | n + 1 => if x % 2 = 1 then 0 else ctz_bits (x / 2) n + 1

/-- The compiler builtin `__builtin_ctz` on a 32-bit `unsigned int`. -/
def __builtin_ctz (x : Nat) : Nat := ctz_bits x 32

/-- Count of zero bits above the highest set bit of `x` among its low `n` bits. -/
def clz_bits (x : Nat) : Nat → Nat
  | 0 => 0
  | n + 1 => if x.testBit n then 0 else clz_bits x n + 1

/-- The compiler builtin `__builtin_clzll` on a 64-bit `unsigned long long`. -/
def __builtin_clzll (x : Nat) : Nat := clz_bits x 64

/-- The macro `LLH_SCALE` (llh.h:91). -/
def LLH_SCALE : Nat := __builtin_ctz LLH_SLOTS_PER_BUCKET - 1

/-- The macro `LLH_BUCKET_RANGE_LOW` (llh.h:39). -/
def LLH_BUCKET_RANGE_LOW (b : Nat) : Nat :=
  if 0 = b then 0 else 1 <<< (b + LLH_SCALE)

/-- The macro `LLH_BUCKET_RANGE_HIGH` (llh.h:42). -/
def LLH_BUCKET_RANGE_HIGH (b : Nat) : Nat :=
  (1 <<< (b + LLH_SCALE + 1)) - 1

/-- The macro `LLH_SLOT_RANGE` (llh.h:45). -/
def LLH_SLOT_RANGE (b : Nat) : Nat :=
  (LLH_BUCKET_RANGE_HIGH b - LLH_BUCKET_RANGE_LOW b + 1) / LLH_SLOTS_PER_BUCKET

/-! ## State -/

/-- The histogram `struct _llh` (llh.h:93-96): `uint32_t v[24][16]` and
`uint32_t overflows`. -/
structure llh_t where
  v : Fin LLH_BUCKETS → Fin LLH_SLOTS_PER_BUCKET → Nat
  overflows : Nat

/-- The static initializer `LLH_INIT` (llh.h:30): every member is zero. -/
def LLH_INIT : llh_t := { v := fun _ _ => 0, overflows := 0 }

/-- Every counter of the histogram holds a 32-bit value. -/
def llh_t.wf (h : llh_t) : Prop :=
  (∀ b s, h.v b s < 2 ^ 32) ∧ h.overflows < 2 ^ 32

/-! ## Operations -/

/-- The function `_incrl` (llh.h:98-101): `lock; incl` on a 32-bit memory operand. The
instruction adds one to the 32 bits in place and wraps from `2 ^ 32 - 1` to 0, whatever
the signedness of the pointer it was reached through. -/
def _incrl (a : Nat) : Nat := (a + 1) % 2 ^ 32

/-- The bucket computed by `llh_record` (llh.h:116). -/
def llh_record_bucket (v : Nat) : Nat :=
  if v < LLH_SLOTS_PER_BUCKET then 0 else __builtin_clzll (v >>> LLH_SCALE) ^^^ 63

/-- The slot computed by `llh_record` for a value and its bucket (llh.h:131-134). -/
def llh_record_slot (v bucket : Nat) : Nat :=
  if 0 = bucket then v
  else (v &&& ((1 <<< (bucket + LLH_SCALE)) - 1)) /
    ((1 <<< (bucket + LLH_SCALE)) / LLH_SLOTS_PER_BUCKET)

/-- The function `llh_record` (llh.h:103-150). On the path `LLH_BUCKETS > bucket` the
increment of `h->v[bucket][slot]` changes the cell with these two indices and no other
(`llh_record_slot_lt` shows that the slot is below 16 for every 64-bit value, so the cell
exists); on the other path it is `overflows` that is incremented. -/
def llh_record (h : llh_t) (v : Nat) : llh_t :=
  let bucket := llh_record_bucket v
  if LLH_BUCKETS > bucket then
    let slot := llh_record_slot v bucket
    { h with v := fun b s =>
        if b.val = bucket ∧ s.val = slot then _incrl (h.v b s) else h.v b s }
  else
    { h with overflows := _incrl h.overflows }

/-- The accessor `llh_population_get(h, bucket, slot)` (llh.h:173-176). -/
def llh_population_get_bucket_slot (h : llh_t) (bucket : Fin LLH_BUCKETS)
    (slot : Fin LLH_SLOTS_PER_BUCKET) : Nat :=
  h.v bucket slot

/-- The accessor `llh_population_get(h, bucket)` (llh.h:164-170): a loop over the slots
with a `uint64_t` accumulator. -/
def llh_population_get_bucket (h : llh_t) (bucket : Fin LLH_BUCKETS) : Nat :=
  (List.finRange LLH_SLOTS_PER_BUCKET).foldl (fun p i => (p + h.v bucket i) % 2 ^ 64) 0

/-- The accessor `llh_population_get(h)` (llh.h:153-161): two nested loops with one
`uint64_t` accumulator. -/
def llh_population_get (h : llh_t) : Nat :=
  (List.finRange LLH_BUCKETS).foldl
    (fun p i => (List.finRange LLH_SLOTS_PER_BUCKET).foldl
      (fun p j => (p + h.v i j) % 2 ^ 64) p) 0

/-- The accessor `llh_overflows_get` (llh.h:179-182). -/
def llh_overflows_get (h : llh_t) : Nat := h.overflows

/-- A run of `llh_record` calls, one per value, in list order. -/
def llh_record_all (h : llh_t) (vs : List Nat) : llh_t := vs.foldl llh_record h

/-- A counter of the histogram: `some (b, s)` is the cell `v[b][s]`, `none` is
`overflows`. -/
def llh_t.counter (h : llh_t) : Option (Fin LLH_BUCKETS × Fin LLH_SLOTS_PER_BUCKET) → Nat
  | some (b, s) => h.v b s
  | none => h.overflows

/-- A histogram whose cell `v[0][0]` holds the largest 32-bit value and whose other
counters are zero. -/
def llh_saturated : llh_t :=
  { v := fun b s => if b.val = 0 ∧ s.val = 0 then 2 ^ 32 - 1 else 0, overflows := 0 }

/-- Whether the cell computed by `llh_record` for the value `v` is `v[b][s]`. -/
def hits (b s v : Nat) : Bool :=
  decide (b = llh_record_bucket v ∧ s = llh_record_slot v (llh_record_bucket v))

/-- A histogram in which every counter holds the largest 32-bit value. -/
def llh_full : llh_t := { v := fun _ _ => 2 ^ 32 - 1, overflows := 2 ^ 32 - 1 }

/-- A short run of values: two in bucket 0, one in bucket 1, one in bucket 6 and two
beyond the last bucket. -/
def sample_values : List Nat := [0, 5, 16, 1000, 2 ^ 27, 2 ^ 64 - 1]

/-- The insertion loop of `_test_llh_record_bucket` (test/llh.c:62-64): one value at the
start of each slot of the bucket, recorded into a zero histogram. -/
def _test_llh_record_bucket_loop (bucket : Nat) : llh_t :=
  llh_record_all LLH_INIT ((List.range LLH_SLOTS_PER_BUCKET).map
    (fun i => i * LLH_SLOT_RANGE bucket + LLH_BUCKET_RANGE_LOW bucket))

/-- The insertion loop of `_test_llh_record_slot` (test/llh.c:92-93): the value at the
start of the slot in each bucket, recorded into a zero histogram. -/
def _test_llh_record_slot_loop (slot : Nat) : llh_t :=
  llh_record_all LLH_INIT ((List.range LLH_BUCKETS).map
    (fun i => slot * LLH_SLOT_RANGE i + LLH_BUCKET_RANGE_LOW i))

/-! ## Checked arithmetic

The same computations with the conditions under which C leaves an operation undefined
written out: a result is `none` when an `int` result does not fit in 32 bits, a shift
amount is not below the width, a divisor is zero, `__builtin_clzll` is applied to 0, or an
array index is out of bounds. -/

/-- An `int` result: defined when it fits in 32 bits. -/
def int_result (x : Int) : Option Int :=
  if -2 ^ 31 ≤ x ∧ x < 2 ^ 31 then some x else none

/-- The operation `a << n` on a non-negative `int`. -/
def int_shl (a : Int) (n : Nat) : Option Int :=
  if 0 ≤ a ∧ n < 32 then int_result (a * 2 ^ n) else none

/-- The operation `a - b` on `int`. -/
def int_sub (a b : Int) : Option Int := int_result (a - b)

/-- The operation `a + b` on `int`. -/
def int_add (a b : Int) : Option Int := int_result (a + b)

/-- The operation `a / b` on `int` (truncating). -/
def int_div (a b : Int) : Option Int :=
  if b = 0 then none else int_result (Int.tdiv a b)

/-- The conversion of an `int` to `uint64_t`. -/
def uint64_of_int (x : Int) : Nat := (x % 2 ^ 64).toNat

/-- The operation `a / b` on `uint64_t`. -/
def uint64_div (a b : Nat) : Option Nat :=
  if b = 0 then none else some (a / b)

/-- The builtin `__builtin_clzll`, whose result is undefined for 0. -/
def __builtin_clzll_checked (x : Nat) : Option Nat :=
  if x = 0 then none else some (__builtin_clzll x)

/-- The macro `LLH_BUCKET_RANGE_LOW` (llh.h:39) in checked `int` arithmetic. -/
def LLH_BUCKET_RANGE_LOW_int (b : Nat) : Option Int :=
  if 0 = b then some 0 else int_shl 1 (b + LLH_SCALE)

/-- The macro `LLH_BUCKET_RANGE_HIGH` (llh.h:42) in checked `int` arithmetic. -/
def LLH_BUCKET_RANGE_HIGH_int (b : Nat) : Option Int :=
  (int_shl 1 (b + LLH_SCALE + 1)).bind fun x => int_sub x 1

/-- The macro `LLH_SLOT_RANGE` (llh.h:45) in checked `int` arithmetic. -/
def LLH_SLOT_RANGE_int (b : Nat) : Option Int :=
  (LLH_BUCKET_RANGE_HIGH_int b).bind fun hi =>
  (LLH_BUCKET_RANGE_LOW_int b).bind fun lo =>
  (int_sub hi lo).bind fun d =>
  (int_add d 1).bind fun e =>
  int_div e LLH_SLOTS_PER_BUCKET

/-- The bucket computed by `llh_record` (llh.h:116), checked. -/
def llh_record_bucket_checked (v : Nat) : Option Nat :=
  if v < LLH_SLOTS_PER_BUCKET then some 0
  else (__builtin_clzll_checked (v >>> LLH_SCALE)).map fun c => c ^^^ 63

/-- The slot computed by `llh_record` (llh.h:131-134), checked: `1 << (bucket + LLH_SCALE)`
is an `int`, the mask and the divisor are converted to `uint64_t`. -/
def llh_record_slot_checked (v bucket : Nat) : Option Nat :=
  if 0 = bucket then some v
  else
    (int_shl 1 (bucket + LLH_SCALE)).bind fun m =>
    (int_sub m 1).bind fun mask =>
    (int_shl 1 (bucket + LLH_SCALE)).bind fun r =>
    (int_div r LLH_SLOTS_PER_BUCKET).bind fun d =>
    uint64_div (v &&& uint64_of_int mask) (uint64_of_int d)

/-- The function `llh_record` (llh.h:103-150), checked: the result is `none` when an
operation on the way is undefined or the cell `v[bucket][slot]` does not exist. -/
def llh_record_checked (h : llh_t) (v : Nat) : Option llh_t :=
  (llh_record_bucket_checked v).bind fun bucket =>
  if LLH_BUCKETS > bucket then
    (llh_record_slot_checked v bucket).bind fun slot =>
    if slot < LLH_SLOTS_PER_BUCKET then
      some { h with v := fun b s =>
        if b.val = bucket ∧ s.val = slot then _incrl (h.v b s) else h.v b s }
    else none
  else
    some { h with overflows := _incrl h.overflows }

/-! ## The binary logarithm as a loop -/

/-- The halving loop of `naive_log2`, run for at most `fuel` rounds. -/
def naive_log2_loop : Nat → Nat → Nat
  | 0, _ => 0
  | fuel + 1, x => if x ≤ 1 then 0 else naive_log2_loop fuel (x / 2) + 1

/-- The naive loop-based binary logarithm that the design notes set against the bit scan:
count how many times `x` can be halved before reaching 1. A 64-bit value reaches 1 in fewer
than 64 rounds. -/
def naive_log2 (x : Nat) : Nat := naive_log2_loop 64 x

/-! ## The two increment modes -/

/-- The value of the `int32_t` object that occupies the 32 bits of the `uint32_t` value
`a` (two's complement). -/
def int32_of_uint32 (a : Nat) : Int :=
  if a < 2 ^ 31 then (a : Int) else (a : Int) - 2 ^ 32

/-- The `uint32_t` value that occupies the 32 bits of the `int32_t` value `i`. -/
def uint32_of_int32 (i : Int) : Nat := (i % 2 ^ 32).toNat

/-- The instruction `incl` on a 32-bit operand read as a signed number: the largest
value wraps to the smallest. -/
def incl (i : Int) : Int := if i = 2 ^ 31 - 1 then -2 ^ 31 else i + 1

/-- The call `_incrl((int32_t*)&counter)` (llh.h:138, 145) on a `uint32_t` counter: the
counter is read through the `int32_t` pointer, `incl` is applied, and the same 32 bits
are the new counter. -/
def _incrl_int32_t (a : Nat) : Nat := uint32_of_int32 (incl (int32_of_uint32 a))

/-- The statement `counter++` on a `uint32_t` counter (llh.h:136, 143). -/
def uint32_t_incr (a : Nat) : Nat := (a + 1) % 2 ^ 32

/-- The function `llh_record` (llh.h:103-150) in the mode chosen at compile time:
with `LLH_UNSAFE_INCREMENT` defined the counter is incremented with `++`, otherwise with
`_incrl` through an `int32_t` pointer. -/
def llh_record_mode (LLH_UNSAFE_INCREMENT : Bool) (h : llh_t) (v : Nat) : llh_t :=
  let bucket := llh_record_bucket v
  if LLH_BUCKETS > bucket then
    let slot := llh_record_slot v bucket
    { h with v := fun b s =>
        if b.val = bucket ∧ s.val = slot then
          (if LLH_UNSAFE_INCREMENT then uint32_t_incr (h.v b s) else _incrl_int32_t (h.v b s))
        else h.v b s }
  else
    { h with overflows :=
        if LLH_UNSAFE_INCREMENT then uint32_t_incr h.overflows
        else _incrl_int32_t h.overflows }

/-- A histogram whose cell `v[0][0]` holds the largest `int32_t` value and whose
`overflows` holds the largest `uint32_t` value. -/
def llh_boundary : llh_t :=
  { v := fun b s => if b.val = 0 ∧ s.val = 0 then 2 ^ 31 - 1 else 0, overflows := 2 ^ 32 - 1 }

/-! ## The bucket and slot computations -/

theorem LLH_SCALE_eq : LLH_SCALE = 3 := by decide

theorem clz_bits_spec (x : Nat) : ∀ n : Nat, 0 < x → x < 2 ^ n →
    clz_bits x n < n ∧ 2 ^ (n - 1 - clz_bits x n) ≤ x ∧ x < 2 ^ (n - clz_bits x n) := by
  intro n
  induction n with
  | zero => intro h0 hx; simp at hx; omega
  | succ n ih =>
    intro h0 hx
    unfold clz_bits
    by_cases hb : x.testBit n = true
    · simp only [hb, if_true]
      refine ⟨by omega, ?_, by simpa using hx⟩
      simpa using Nat.testBit_implies_ge hb
    · rw [if_neg hb]
      have hlt : x < 2 ^ n := by
        apply Nat.lt_pow_two_of_testBit
        intro i hi
        rcases Nat.eq_or_lt_of_le hi with h | h
        · subst h; simpa using hb
        · exact Nat.testBit_lt_two_pow (lt_of_lt_of_le hx (Nat.pow_le_pow_right (by norm_num) h))
      obtain ⟨h1, h2, h3⟩ := ih h0 hlt
      refine ⟨by omega, ?_, ?_⟩
      · have : n + 1 - 1 - (clz_bits x n + 1) = n - 1 - clz_bits x n := by omega
        rw [this]; exact h2
      · have : n + 1 - (clz_bits x n + 1) = n - clz_bits x n := by omega
        rw [this]; exact h3

theorem xor_63 : ∀ c : Nat, c < 64 → c ^^^ 63 = 63 - c := by decide

theorem llh_record_bucket_small (v : Nat) (hv : v < 16) : llh_record_bucket v = 0 := by
  simp [llh_record_bucket, hv]

theorem llh_record_bucket_large (v : Nat) (h16 : 16 ≤ v) (hv : v < 2 ^ 64) :
    1 ≤ llh_record_bucket v ∧ llh_record_bucket v ≤ 60 ∧
      2 ^ (llh_record_bucket v + 3) ≤ v ∧ v < 2 ^ (llh_record_bucket v + 4) := by
  have hx0 : 2 ≤ v / 8 := by omega
  have hx1 : v / 8 < 2 ^ 64 := by omega
  obtain ⟨h1, h2, h3⟩ := clz_bits_spec (v / 8) 64 (by omega) hx1
  have hb : llh_record_bucket v = 63 - clz_bits (v / 8) 64 := by
    have : ¬ v < 16 := by omega
    simp only [llh_record_bucket, this, if_false, LLH_SCALE_eq, __builtin_clzll,
      Nat.shiftRight_eq_div_pow]
    exact xor_63 _ h1
  rw [hb]
  generalize clz_bits (v / 8) 64 = c at *
  have e1 : 64 - 1 - c = 63 - c := by omega
  have e2 : 64 - c = (63 - c) + 1 := by omega
  rw [e1] at h2; rw [e2] at h3
  generalize 63 - c = b at *
  have hb1 : 1 ≤ b := by
    rcases Nat.eq_zero_or_pos b with h | h
    · subst h; simp at h3; omega
    · exact h
  have hb2 : b ≤ 60 := by
    by_contra hcon
    have : 2 ^ 61 ≤ 2 ^ b := Nat.pow_le_pow_right (by norm_num) (by omega)
    omega
  refine ⟨hb1, hb2, ?_, ?_⟩
  · have : 2 ^ (b + 3) = 2 ^ b * 8 := by rw [pow_add]; norm_num
    omega
  · have : 2 ^ (b + 4) = 2 ^ (b + 1) * 8 := by rw [pow_add, pow_add]; ring
    omega

theorem LLH_BUCKET_RANGE_LOW_eq (b : Nat) :
    LLH_BUCKET_RANGE_LOW b = if b = 0 then 0 else 2 ^ (b + 3) := by
  unfold LLH_BUCKET_RANGE_LOW
  rw [LLH_SCALE_eq, Nat.one_shiftLeft]
  by_cases h : b = 0
  · subst h; simp
  · rw [if_neg h, if_neg (fun h0 => h h0.symm)]

theorem LLH_BUCKET_RANGE_HIGH_eq (b : Nat) : LLH_BUCKET_RANGE_HIGH b = 2 ^ (b + 4) - 1 := by
  unfold LLH_BUCKET_RANGE_HIGH
  rw [LLH_SCALE_eq, Nat.one_shiftLeft]

theorem pow_split_16 (b : Nat) (hb : 1 ≤ b) : 2 ^ (b + 3) = 16 * 2 ^ (b - 1) := by
  obtain ⟨k, rfl⟩ : ∃ k, b = k + 1 := ⟨b - 1, by omega⟩
  simp only [Nat.add_sub_cancel]
  rw [show k + 1 + 3 = k + 4 by omega, pow_add]
  ring

theorem LLH_SLOT_RANGE_eq (b : Nat) :
    LLH_SLOT_RANGE b = if b = 0 then 1 else 2 ^ (b - 1) := by
  unfold LLH_SLOT_RANGE
  rw [LLH_BUCKET_RANGE_HIGH_eq, LLH_BUCKET_RANGE_LOW_eq]
  by_cases h : b = 0
  · subst h; simp
  · rw [if_neg h, if_neg h]
    have h1 := pow_split_16 b (by omega)
    have h2 : 2 ^ (b + 4) = 2 * 2 ^ (b + 3) := by rw [pow_succ]; ring
    have h3 : 0 < 2 ^ (b - 1) := Nat.two_pow_pos _
    have : 2 ^ (b + 4) - 1 - 2 ^ (b + 3) + 1 = 2 ^ (b - 1) * 16 := by omega
    rw [this, Nat.mul_div_cancel _ (by norm_num)]

theorem llh_record_slot_zero (v : Nat) : llh_record_slot v 0 = v := by
  simp [llh_record_slot]

theorem llh_record_slot_pos (v b : Nat) (hb : 1 ≤ b) :
    llh_record_slot v b = (v % 2 ^ (b + 3)) / 2 ^ (b - 1) := by
  unfold llh_record_slot
  rw [if_neg (by omega), LLH_SCALE_eq, Nat.one_shiftLeft, Nat.and_pow_two_sub_one_eq_mod,
    pow_split_16 b hb, Nat.mul_div_cancel_left _ (by norm_num)]

theorem high_lt_low (a b : Nat) (h : a < b) :
    LLH_BUCKET_RANGE_HIGH a < LLH_BUCKET_RANGE_LOW b := by
  rw [LLH_BUCKET_RANGE_HIGH_eq, LLH_BUCKET_RANGE_LOW_eq, if_neg (by omega)]
  have h1 : 2 ^ (a + 4) ≤ 2 ^ (b + 3) := Nat.pow_le_pow_right (by norm_num) (by omega)
  have h2 : 0 < 2 ^ (a + 4) := Nat.two_pow_pos _
  omega

/-- The bucket of a value lies between the bounds of that bucket. -/
theorem llh_record_bucket_range (v : Nat) (hv : v < 2 ^ 64) :
    LLH_BUCKET_RANGE_LOW (llh_record_bucket v) ≤ v ∧
      v ≤ LLH_BUCKET_RANGE_HIGH (llh_record_bucket v) := by
  rw [LLH_BUCKET_RANGE_HIGH_eq, LLH_BUCKET_RANGE_LOW_eq]
  by_cases h : v < 16
  · rw [llh_record_bucket_small v h]; simp; omega
  · obtain ⟨h1, _, h3, h4⟩ := llh_record_bucket_large v (by omega) hv
    rw [if_neg (by omega)]
    omega

/-- A value lying between the bounds of a bucket has that bucket. -/
theorem llh_record_bucket_unique (v b : Nat) (hv : v < 2 ^ 64)
    (hl : LLH_BUCKET_RANGE_LOW b ≤ v) (hh : v ≤ LLH_BUCKET_RANGE_HIGH b) :
    llh_record_bucket v = b := by
  obtain ⟨h1, h2⟩ := llh_record_bucket_range v hv
  rcases Nat.lt_trichotomy (llh_record_bucket v) b with h | h | h
  · have := high_lt_low _ _ h; omega
  · exact h
  · have := high_lt_low _ _ h; omega

/-- The slot of a value, in terms of the bounds of its bucket. -/
theorem llh_record_slot_range (v : Nat) (hv : v < 2 ^ 64) :
    llh_record_slot v (llh_record_bucket v) =
        (v - LLH_BUCKET_RANGE_LOW (llh_record_bucket v)) / LLH_SLOT_RANGE (llh_record_bucket v) ∧
      llh_record_slot v (llh_record_bucket v) < LLH_SLOTS_PER_BUCKET := by
  rw [LLH_SLOT_RANGE_eq, LLH_BUCKET_RANGE_LOW_eq]
  by_cases h : v < 16
  · rw [llh_record_bucket_small v h, llh_record_slot_zero]; simpa using h
  · obtain ⟨h1, _, h3, h4⟩ := llh_record_bucket_large v (by omega) hv
    generalize llh_record_bucket v = b at *
    rw [if_neg (by omega), if_neg (by omega), llh_record_slot_pos v b h1]
    have e : 2 ^ (b + 4) = 2 * 2 ^ (b + 3) := by rw [pow_succ]; ring
    have hm : v % 2 ^ (b + 3) = v - 2 ^ (b + 3) := by
      rw [Nat.mod_eq_sub_mod h3, Nat.mod_eq_of_lt (by omega)]
    rw [hm]
    refine ⟨rfl, ?_⟩
    rw [Nat.div_lt_iff_lt_mul (Nat.two_pow_pos _)]
    have := pow_split_16 b h1
    show v - 2 ^ (b + 3) < 16 * 2 ^ (b - 1)
    omega

theorem llh_record_bucket_lt_iff (v : Nat) (hv : v < 2 ^ 64) :
    llh_record_bucket v < LLH_BUCKETS ↔ v < 2 ^ 27 := by
  obtain ⟨h1, h2⟩ := llh_record_bucket_range v hv
  rw [LLH_BUCKET_RANGE_HIGH_eq] at h2
  rw [LLH_BUCKET_RANGE_LOW_eq] at h1
  constructor
  · intro h
    have : 2 ^ (llh_record_bucket v + 4) ≤ 2 ^ 27 :=
      Nat.pow_le_pow_right (by norm_num) (by unfold LLH_BUCKETS at h; omega)
    have := Nat.two_pow_pos (llh_record_bucket v + 4)
    omega
  · intro h
    by_contra hcon
    have hb : 24 ≤ llh_record_bucket v := by unfold LLH_BUCKETS at hcon; omega
    rw [if_neg (by omega)] at h1
    have : 2 ^ 27 ≤ 2 ^ (llh_record_bucket v + 3) :=
      Nat.pow_le_pow_right (by norm_num) (by omega)
    omega

theorem LLH_BUCKET_RANGE_HIGH_last : LLH_BUCKET_RANGE_HIGH (LLH_BUCKETS - 1) = 2 ^ 27 - 1 := by
  rw [LLH_BUCKET_RANGE_HIGH_eq]; rfl

/-- The slot of a value in a bucket is below the slot count. -/
theorem llh_record_slot_lt (v : Nat) (hv : v < 2 ^ 64) :
    llh_record_slot v (llh_record_bucket v) < LLH_SLOTS_PER_BUCKET :=
  (llh_record_slot_range v hv).2

/-- The bounds of the slot of a value. -/
theorem llh_record_slot_bounds (v : Nat) (hv : v < 2 ^ 64) :
    LLH_BUCKET_RANGE_LOW (llh_record_bucket v) +
        llh_record_slot v (llh_record_bucket v) * LLH_SLOT_RANGE (llh_record_bucket v) ≤ v ∧
      v < LLH_BUCKET_RANGE_LOW (llh_record_bucket v) +
        (llh_record_slot v (llh_record_bucket v) + 1) * LLH_SLOT_RANGE (llh_record_bucket v) := by
  obtain ⟨h1, _⟩ := llh_record_slot_range v hv
  obtain ⟨h2, _⟩ := llh_record_bucket_range v hv
  have hw : 0 < LLH_SLOT_RANGE (llh_record_bucket v) := by
    rw [LLH_SLOT_RANGE_eq]; split
    · norm_num
    · exact Nat.two_pow_pos _
  rw [h1]
  generalize LLH_SLOT_RANGE (llh_record_bucket v) = w at *
  generalize LLH_BUCKET_RANGE_LOW (llh_record_bucket v) = l at *
  have e1 := Nat.div_mul_le_self (v - l) w
  have e2 : (v - l) / w < (v - l) / w + 1 := Nat.lt_succ_self _
  rw [Nat.div_lt_iff_lt_mul hw] at e2
  constructor <;> omega

/-! ## The effect of `llh_record` on the state -/

theorem _incrl_ne (a : Nat) : _incrl a ≠ a := by
  unfold _incrl; omega

theorem _incrl_lt (a : Nat) : _incrl a < 2 ^ 32 := by
  unfold _incrl; omega

theorem _incrl_of_lt (a : Nat) (h : a < 2 ^ 32 - 1) : _incrl a = a + 1 := by
  unfold _incrl; omega

theorem llh_record_v (h : llh_t) (v : Nat) (b : Fin LLH_BUCKETS)
    (s : Fin LLH_SLOTS_PER_BUCKET) :
    (llh_record h v).v b s =
      if b.val = llh_record_bucket v ∧ s.val = llh_record_slot v (llh_record_bucket v)
      then _incrl (h.v b s) else h.v b s := by
  unfold llh_record
  by_cases hb : LLH_BUCKETS > llh_record_bucket v
  · simp only [hb, if_true]
  · simp only [hb, if_false]
    rw [if_neg]
    rintro ⟨h1, _⟩
    exact hb (h1 ▸ b.isLt)

theorem llh_record_overflows (h : llh_t) (v : Nat) :
    (llh_record h v).overflows =
      if llh_record_bucket v < LLH_BUCKETS then h.overflows else _incrl h.overflows := by
  unfold llh_record
  by_cases hb : LLH_BUCKETS > llh_record_bucket v
  · simp only [hb, if_true]
  · simp only [hb, if_false]

theorem llh_record_v_overflow (h : llh_t) (v : Nat) (hb : ¬ llh_record_bucket v < LLH_BUCKETS) :
    (llh_record h v).v = h.v := by
  funext b s
  rw [llh_record_v, if_neg]
  rintro ⟨h1, _⟩
  exact hb (h1 ▸ b.isLt)

/-! ## The accessors -/

/-- A loop that adds `f i` to a bounded accumulator computes the exact sum as long as
the sum stays below the bound. -/
theorem foldl_add_exact {α : Type} (M : Nat) (g : Nat → α → Nat) (f : α → Nat)
    (hg : ∀ p i, p + f i < M → g p i = p + f i) :
    ∀ (l : List α) (a : Nat), a + (l.map f).sum < M → l.foldl g a = a + (l.map f).sum := by
  intro l
  induction l with
  | nil => intro a _; simp
  | cons i l ih =>
    intro a h
    simp only [List.map_cons, List.sum_cons] at h
    simp only [List.foldl_cons, List.map_cons, List.sum_cons]
    rw [hg a i (by omega), ih (a + f i) (by omega)]
    omega

theorem row_sum_le (h : llh_t) (hwf : h.wf) (b : Fin LLH_BUCKETS) :
    ∑ s, h.v b s ≤ 16 * (2 ^ 32 - 1) := by
  have : ∀ s ∈ (Finset.univ : Finset (Fin LLH_SLOTS_PER_BUCKET)), h.v b s ≤ 2 ^ 32 - 1 := by
    intro s _
    have := hwf.1 b s
    omega
  have h2 := Finset.sum_le_card_nsmul _ _ _ this
  simpa using h2

theorem table_sum_le (h : llh_t) (hwf : h.wf) :
    ∑ b, ∑ s, h.v b s ≤ 24 * (16 * (2 ^ 32 - 1)) := by
  have h2 := Finset.sum_le_card_nsmul (Finset.univ : Finset (Fin LLH_BUCKETS))
    (fun b => ∑ s, h.v b s) _ (fun b _ => row_sum_le h hwf b)
  simpa using h2

theorem llh_population_get_bucket_eq (h : llh_t) (hwf : h.wf) (b : Fin LLH_BUCKETS) :
    llh_population_get_bucket h b = ∑ s, h.v b s := by
  unfold llh_population_get_bucket
  have hb := row_sum_le h hwf b
  rw [Fin.sum_univ_def] at hb ⊢
  rw [foldl_add_exact (2 ^ 64) _ (h.v b)
    (fun p i hp => Nat.mod_eq_of_lt hp) _ 0 (by omega)]
  omega

theorem llh_population_get_eq (h : llh_t) (hwf : h.wf) :
    llh_population_get h = ∑ b, ∑ s, h.v b s := by
  unfold llh_population_get
  have hb := table_sum_le h hwf
  rw [Fin.sum_univ_def] at hb ⊢
  rw [foldl_add_exact (2 ^ 64) _ (fun b => ∑ s, h.v b s) _ _ 0 (by omega)]
  · omega
  · intro p i hp
    beta_reduce at hp ⊢
    rw [Fin.sum_univ_def] at hp ⊢
    exact foldl_add_exact (2 ^ 64) _ (h.v i)
      (fun p i hp => Nat.mod_eq_of_lt hp) _ p hp

theorem llh_population_get_congr (h h' : llh_t) (e : h'.v = h.v) :
    llh_population_get h' = llh_population_get h := by
  unfold llh_population_get; rw [e]

theorem llh_population_get_bucket_congr (h h' : llh_t) (e : h'.v = h.v)
    (b : Fin LLH_BUCKETS) :
    llh_population_get_bucket h' b = llh_population_get_bucket h b := by
  unfold llh_population_get_bucket; rw [e]

theorem LLH_INIT_wf : LLH_INIT.wf := by
  constructor
  · intro b s; simp [LLH_INIT]
  · simp [LLH_INIT]

theorem llh_population_get_init : llh_population_get LLH_INIT = 0 := by
  rw [llh_population_get_eq _ LLH_INIT_wf]
  simp [LLH_INIT]

theorem llh_population_get_bucket_init (b : Fin LLH_BUCKETS) :
    llh_population_get_bucket LLH_INIT b = 0 := by
  rw [llh_population_get_bucket_eq _ LLH_INIT_wf]
  simp [LLH_INIT]

/-! ## The contract of `llh_record` -/

theorem llh_saturated_wf : llh_saturated.wf := by
  constructor
  · intro b s
    simp only [llh_saturated]
    split <;> norm_num
  · simp [llh_saturated]

/-- C1, as stated, fails: in the histogram whose cell `v[0][0]` holds `2 ^ 32 - 1`,
recording the value 0 wraps that cell to 0, so no counter becomes its old value plus
one. -/
theorem llh_record_plus_one_counterexample :
    llh_saturated.wf ∧ llh_saturated.v 0 0 = 2 ^ 32 - 1 ∧
      (llh_record llh_saturated 0).v 0 0 = 0 ∧
      ¬ ∃ c, (llh_record llh_saturated 0).counter c = llh_saturated.counter c + 1 ∧
        ∀ c', c' ≠ c → (llh_record llh_saturated 0).counter c' = llh_saturated.counter c' := by
  have h0 : (llh_record llh_saturated 0).v 0 0 = 0 := by decide
  have h1 : llh_saturated.v 0 0 = 2 ^ 32 - 1 := by decide
  refine ⟨llh_saturated_wf, h1, h0, ?_⟩
  rintro ⟨c, hc, hrest⟩
  by_cases e : c = some (0, 0)
  · subst e
    simp only [llh_t.counter] at hc
    rw [h0, h1] at hc
    omega
  · have := hrest (some (0, 0)) (fun h => e h.symm)
    simp only [llh_t.counter] at this
    rw [h0, h1] at this
    omega

/-- C1 (amended): for every histogram state and every 64-bit value, `llh_record` changes
exactly one counter among the cells and `overflows`. It is the cell of the computed bucket
and slot when the bucket is below `LLH_BUCKETS`, and `overflows` otherwise. That counter
becomes its old value plus one modulo `2 ^ 32`, which is the old value plus one whenever
the old value is below `2 ^ 32 - 1`; every other counter keeps its old value. -/
theorem llh_record_one_counter (h : llh_t) (v : Nat) (hv : v < 2 ^ 64) :
    ∃ c : Option (Fin LLH_BUCKETS × Fin LLH_SLOTS_PER_BUCKET),
      (c = none ↔ ¬ llh_record_bucket v < LLH_BUCKETS) ∧
      (∀ b s, c = some (b, s) →
        b.val = llh_record_bucket v ∧ s.val = llh_record_slot v (llh_record_bucket v)) ∧
      (llh_record h v).counter c = (h.counter c + 1) % 2 ^ 32 ∧
      (llh_record h v).counter c ≠ h.counter c ∧
      (h.counter c < 2 ^ 32 - 1 → (llh_record h v).counter c = h.counter c + 1) ∧
      ∀ c', c' ≠ c → (llh_record h v).counter c' = h.counter c' := by
  by_cases hb : llh_record_bucket v < LLH_BUCKETS
  · have hs := llh_record_slot_lt v hv
    have key : (llh_record h v).v ⟨_, hb⟩ ⟨_, hs⟩ = _incrl (h.v ⟨_, hb⟩ ⟨_, hs⟩) := by
      rw [llh_record_v, if_pos ⟨rfl, rfl⟩]
    refine ⟨some (⟨_, hb⟩, ⟨_, hs⟩), by simpa using hb, ?_, ?_, ?_, ?_, ?_⟩
    · intro b s e
      simp only [Option.some.injEq, Prod.mk.injEq] at e
      rw [← e.1, ← e.2]
      exact ⟨rfl, rfl⟩
    · simp only [llh_t.counter]; rw [key]; rfl
    · simp only [llh_t.counter]; rw [key]; exact _incrl_ne _
    · intro hlt
      simp only [llh_t.counter] at hlt ⊢
      rw [key]; exact _incrl_of_lt _ hlt
    · intro c' hc'
      cases c' with
      | none => simp only [llh_t.counter]; rw [llh_record_overflows, if_pos hb]
      | some p =>
        obtain ⟨b, s⟩ := p
        simp only [llh_t.counter]
        rw [llh_record_v, if_neg]
        rintro ⟨e1, e2⟩
        apply hc'
        simp only [Option.some.injEq, Prod.mk.injEq]
        exact ⟨Fin.ext e1, Fin.ext e2⟩
  · have key : (llh_record h v).overflows = _incrl h.overflows := by
      rw [llh_record_overflows, if_neg hb]
    refine ⟨none, by simpa using hb, ?_, ?_, ?_, ?_, ?_⟩
    · intro b s e; cases e
    · simp only [llh_t.counter]; rw [key]; rfl
    · simp only [llh_t.counter]; rw [key]; exact _incrl_ne _
    · intro hlt
      simp only [llh_t.counter] at hlt ⊢
      rw [key]; exact _incrl_of_lt _ hlt
    · intro c' hc'
      cases c' with
      | none => exact absurd rfl hc'
      | some p =>
        obtain ⟨b, s⟩ := p
        simp only [llh_t.counter]
        rw [llh_record_v_overflow h v hb]

/-- Witness of `llh_record_one_counter`: the value 5 recorded into the zero histogram. -/
theorem llh_record_one_counter_witness :
    (5 : Nat) < 2 ^ 64 ∧
    ∃ c : Option (Fin LLH_BUCKETS × Fin LLH_SLOTS_PER_BUCKET),
      (c = none ↔ ¬ llh_record_bucket 5 < LLH_BUCKETS) ∧
      (∀ b s, c = some (b, s) →
        b.val = llh_record_bucket 5 ∧ s.val = llh_record_slot 5 (llh_record_bucket 5)) ∧
      (llh_record LLH_INIT 5).counter c = (LLH_INIT.counter c + 1) % 2 ^ 32 ∧
      (llh_record LLH_INIT 5).counter c ≠ LLH_INIT.counter c ∧
      (LLH_INIT.counter c < 2 ^ 32 - 1 →
        (llh_record LLH_INIT 5).counter c = LLH_INIT.counter c + 1) ∧
      ∀ c', c' ≠ c → (llh_record LLH_INIT 5).counter c' = LLH_INIT.counter c' :=
  ⟨by norm_num, llh_record_one_counter LLH_INIT 5 (by norm_num)⟩

theorem lt_of_le_high_last (v : Nat) (hv : v ≤ LLH_BUCKET_RANGE_HIGH (LLH_BUCKETS - 1)) :
    v < 2 ^ 27 ∧ v < 2 ^ 64 := by
  rw [LLH_BUCKET_RANGE_HIGH_last] at hv
  omega

/-- C2: for every value `v ≤ high(B-1) = 2 ^ 27 - 1` (with `B = 24`, `S = 16`, `K = 3`),
the bucket computed by `llh_record`, which is the row of the cell it changes, is below `B`,
satisfies `low(b) ≤ v ≤ high(b)`, is the largest `b < B` with `low(b) ≤ v`, and is the only
`b < B` with `low(b) ≤ v ≤ high(b)`. -/
theorem llh_record_bucket_spec (v : Nat) (hv : v ≤ LLH_BUCKET_RANGE_HIGH (LLH_BUCKETS - 1)) :
    LLH_BUCKET_RANGE_HIGH (LLH_BUCKETS - 1) = 2 ^ 27 - 1 ∧ LLH_SCALE = 3 ∧
      llh_record_bucket v < LLH_BUCKETS ∧
      LLH_BUCKET_RANGE_LOW (llh_record_bucket v) ≤ v ∧
      v ≤ LLH_BUCKET_RANGE_HIGH (llh_record_bucket v) ∧
      (∀ b, b < LLH_BUCKETS → LLH_BUCKET_RANGE_LOW b ≤ v → b ≤ llh_record_bucket v) ∧
      (∀ b, b < LLH_BUCKETS → LLH_BUCKET_RANGE_LOW b ≤ v → v ≤ LLH_BUCKET_RANGE_HIGH b →
        b = llh_record_bucket v) ∧
      (∀ (h : llh_t) (b : Fin LLH_BUCKETS) (s : Fin LLH_SLOTS_PER_BUCKET),
        (llh_record h v).v b s ≠ h.v b s → b.val = llh_record_bucket v) ∧
      (∀ h : llh_t, ∃ (b : Fin LLH_BUCKETS) (s : Fin LLH_SLOTS_PER_BUCKET),
        b.val = llh_record_bucket v ∧ (llh_record h v).v b s ≠ h.v b s) := by
  obtain ⟨h27, h64⟩ := lt_of_le_high_last v hv
  obtain ⟨hl, hh⟩ := llh_record_bucket_range v h64
  have hb := (llh_record_bucket_lt_iff v h64).2 h27
  refine ⟨LLH_BUCKET_RANGE_HIGH_last, LLH_SCALE_eq, hb, hl, hh, ?_, ?_, ?_, ?_⟩
  · intro b _ hlb
    by_contra hcon
    have := high_lt_low (llh_record_bucket v) b (by omega)
    omega
  · intro b _ hlb hhb
    exact (llh_record_bucket_unique v b h64 hlb hhb).symm
  · intro h b s hne
    rw [llh_record_v] at hne
    by_contra hcon
    rw [if_neg (fun h => hcon h.1)] at hne
    exact hne rfl
  · intro h
    refine ⟨⟨_, hb⟩, ⟨_, llh_record_slot_lt v h64⟩, rfl, ?_⟩
    rw [llh_record_v, if_pos ⟨rfl, rfl⟩]
    exact _incrl_ne _

/-- Witness of `llh_record_bucket_spec`: the value 1000, which lies in bucket 6. -/
theorem llh_record_bucket_spec_witness :
    1000 ≤ LLH_BUCKET_RANGE_HIGH (LLH_BUCKETS - 1) ∧ llh_record_bucket 1000 = 6 ∧
      llh_record_bucket 1000 < LLH_BUCKETS ∧
      LLH_BUCKET_RANGE_LOW (llh_record_bucket 1000) ≤ 1000 ∧
      1000 ≤ LLH_BUCKET_RANGE_HIGH (llh_record_bucket 1000) :=
  have h := llh_record_bucket_spec 1000 (by decide)
  ⟨by decide, by decide, h.2.2.1, h.2.2.2.1, h.2.2.2.2.1⟩

/-- C3: for every value `v ≤ high(B-1)`, with `b` the bucket computed by `llh_record`, the
slot `s` it computes, which together with `b` indexes the cell it changes, is
`(v - low(b)) / slot_width(b)` with `slot_width(b) = LLH_SLOT_RANGE(b)`; it is at most
`S - 1`, and it is the only `s` with
`low(b) + s * slot_width(b) ≤ v < low(b) + (s + 1) * slot_width(b)`. In bucket 0 the
slot is `v`; in a bucket `b ≥ 1` it is `(v & (2 ^ (b + K) - 1)) / (2 ^ (b + K) / S)`. -/
theorem llh_record_slot_spec (v : Nat) (hv : v ≤ LLH_BUCKET_RANGE_HIGH (LLH_BUCKETS - 1)) :
    llh_record_bucket v < LLH_BUCKETS ∧
      llh_record_slot v (llh_record_bucket v) =
        (v - LLH_BUCKET_RANGE_LOW (llh_record_bucket v)) /
          LLH_SLOT_RANGE (llh_record_bucket v) ∧
      llh_record_slot v (llh_record_bucket v) ≤ LLH_SLOTS_PER_BUCKET - 1 ∧
      LLH_BUCKET_RANGE_LOW (llh_record_bucket v) +
        llh_record_slot v (llh_record_bucket v) * LLH_SLOT_RANGE (llh_record_bucket v) ≤ v ∧
      v < LLH_BUCKET_RANGE_LOW (llh_record_bucket v) +
        (llh_record_slot v (llh_record_bucket v) + 1) *
          LLH_SLOT_RANGE (llh_record_bucket v) ∧
      (∀ s, LLH_BUCKET_RANGE_LOW (llh_record_bucket v) +
          s * LLH_SLOT_RANGE (llh_record_bucket v) ≤ v →
        v < LLH_BUCKET_RANGE_LOW (llh_record_bucket v) +
          (s + 1) * LLH_SLOT_RANGE (llh_record_bucket v) →
        s = llh_record_slot v (llh_record_bucket v)) ∧
      (llh_record_bucket v = 0 → llh_record_slot v (llh_record_bucket v) = v) ∧
      (1 ≤ llh_record_bucket v → llh_record_slot v (llh_record_bucket v) =
        (v &&& (2 ^ (llh_record_bucket v + 3) - 1)) /
          (2 ^ (llh_record_bucket v + 3) / LLH_SLOTS_PER_BUCKET)) ∧
      (∀ (h : llh_t) (b : Fin LLH_BUCKETS) (s : Fin LLH_SLOTS_PER_BUCKET),
        (llh_record h v).v b s ≠ h.v b s ↔
          (b.val = llh_record_bucket v ∧ s.val = llh_record_slot v (llh_record_bucket v))) := by
  obtain ⟨h27, h64⟩ := lt_of_le_high_last v hv
  obtain ⟨hs, hslt⟩ := llh_record_slot_range v h64
  obtain ⟨hlo, hhi⟩ := llh_record_slot_bounds v h64
  have hb := (llh_record_bucket_lt_iff v h64).2 h27
  refine ⟨hb, hs, by unfold LLH_SLOTS_PER_BUCKET at hslt ⊢; omega, hlo, hhi, ?_, ?_, ?_, ?_⟩
  · intro s h1 h2
    rw [hs]
    have hw : 0 < LLH_SLOT_RANGE (llh_record_bucket v) := by
      rw [LLH_SLOT_RANGE_eq]; split
      · norm_num
      · exact Nat.two_pow_pos _
    symm
    generalize LLH_SLOT_RANGE (llh_record_bucket v) = w at *
    generalize LLH_BUCKET_RANGE_LOW (llh_record_bucket v) = l at *
    have : (s + 1) * w = s * w + w := by ring
    apply Nat.div_eq_of_lt_le <;> omega
  · intro h0
    rw [h0, llh_record_slot_zero]
  · intro h1
    unfold llh_record_slot
    rw [if_neg (by omega), LLH_SCALE_eq, Nat.one_shiftLeft]
  · intro h b s
    rw [llh_record_v]
    constructor
    · intro hne
      by_contra hcon
      rw [if_neg hcon] at hne
      exact hne rfl
    · intro hc
      rw [if_pos hc]
      exact _incrl_ne _

/-- Witness of `llh_record_slot_spec`: the value 1000 lies in bucket 6, slot 15. -/
theorem llh_record_slot_spec_witness :
    1000 ≤ LLH_BUCKET_RANGE_HIGH (LLH_BUCKETS - 1) ∧
      llh_record_slot 1000 (llh_record_bucket 1000) = 15 ∧
      llh_record_slot 1000 (llh_record_bucket 1000) =
        (1000 - LLH_BUCKET_RANGE_LOW (llh_record_bucket 1000)) /
          LLH_SLOT_RANGE (llh_record_bucket 1000) ∧
      llh_record_slot 1000 (llh_record_bucket 1000) ≤ LLH_SLOTS_PER_BUCKET - 1 :=
  have h := llh_record_slot_spec 1000 (by decide)
  ⟨by decide, by decide, h.2.1, h.2.2.1⟩

/-- C4: for every histogram state and every 64-bit value `v`, `llh_record` applies its
increment to `overflows` if and only if `v > high(B-1) = 2 ^ 27 - 1`. In that case the
counter goes up by one (modulo `2 ^ 32`, so by exactly one below `2 ^ 32 - 1`), and no cell
and no `llh_population_get` result changes; otherwise `overflows` is unchanged. So
`high(B-1)` does not overflow and `high(B-1) + 1` does, and recording `high(B-1) + 1`
into the zero histogram gives `llh_overflows_get = 1` with population 0. -/
theorem llh_record_overflow_iff (h : llh_t) (v : Nat) (hv : v < 2 ^ 64) :
    LLH_BUCKET_RANGE_HIGH (LLH_BUCKETS - 1) = 2 ^ 27 - 1 ∧
      ((llh_record h v).overflows = (h.overflows + 1) % 2 ^ 32 ↔
        v > LLH_BUCKET_RANGE_HIGH (LLH_BUCKETS - 1)) ∧
      ((llh_record h v).overflows ≠ h.overflows ↔
        v > LLH_BUCKET_RANGE_HIGH (LLH_BUCKETS - 1)) ∧
      (v > LLH_BUCKET_RANGE_HIGH (LLH_BUCKETS - 1) →
        (h.overflows < 2 ^ 32 - 1 → (llh_record h v).overflows = h.overflows + 1) ∧
        (∀ b s, (llh_record h v).v b s = h.v b s) ∧
        (∀ b s, llh_population_get_bucket_slot (llh_record h v) b s =
          llh_population_get_bucket_slot h b s) ∧
        (∀ b, llh_population_get_bucket (llh_record h v) b = llh_population_get_bucket h b) ∧
        llh_population_get (llh_record h v) = llh_population_get h) ∧
      (v ≤ LLH_BUCKET_RANGE_HIGH (LLH_BUCKETS - 1) →
        (llh_record h v).overflows = h.overflows) ∧
      (llh_record h (LLH_BUCKET_RANGE_HIGH (LLH_BUCKETS - 1))).overflows = h.overflows ∧
      (llh_record h (LLH_BUCKET_RANGE_HIGH (LLH_BUCKETS - 1) + 1)).overflows =
        (h.overflows + 1) % 2 ^ 32 ∧
      llh_overflows_get (llh_record LLH_INIT (LLH_BUCKET_RANGE_HIGH (LLH_BUCKETS - 1) + 1)) = 1 ∧
      llh_population_get (llh_record LLH_INIT (LLH_BUCKET_RANGE_HIGH (LLH_BUCKETS - 1) + 1)) = 0 ∧
      llh_overflows_get (llh_record LLH_INIT (LLH_BUCKET_RANGE_HIGH LLH_BUCKETS + 1)) = 1 := by
  have hbi := llh_record_bucket_lt_iff v hv
  have hlast := LLH_BUCKET_RANGE_HIGH_last
  have hov := llh_record_overflows h v
  have hgt : v > LLH_BUCKET_RANGE_HIGH (LLH_BUCKETS - 1) ↔ ¬ llh_record_bucket v < LLH_BUCKETS := by
    rw [hbi, hlast]; omega
  have hne := _incrl_ne h.overflows
  have hin : _incrl h.overflows = (h.overflows + 1) % 2 ^ 32 := rfl
  have hb1 : llh_record_bucket (LLH_BUCKET_RANGE_HIGH (LLH_BUCKETS - 1)) < LLH_BUCKETS := by
    rw [llh_record_bucket_lt_iff _ (by rw [hlast]; norm_num), hlast]; norm_num
  have hb2 : ¬ llh_record_bucket (LLH_BUCKET_RANGE_HIGH (LLH_BUCKETS - 1) + 1) < LLH_BUCKETS := by
    rw [llh_record_bucket_lt_iff _ (by rw [hlast]; norm_num), hlast]; norm_num
  have hb3 : ¬ llh_record_bucket (LLH_BUCKET_RANGE_HIGH LLH_BUCKETS + 1) < LLH_BUCKETS := by
    rw [LLH_BUCKET_RANGE_HIGH_eq, llh_record_bucket_lt_iff _ (by norm_num)]; norm_num
  refine ⟨hlast, ?_, ?_, ?_, ?_, ?_, ?_, ?_, ?_, ?_⟩
  · rw [hgt, hov]
    by_cases hb : llh_record_bucket v < LLH_BUCKETS
    · rw [if_pos hb, ← hin]
      exact ⟨fun e => absurd e.symm hne, fun e => absurd hb e⟩
    · rw [if_neg hb, ← hin]
      exact ⟨fun _ => hb, fun _ => rfl⟩
  · rw [hgt, hov]
    by_cases hb : llh_record_bucket v < LLH_BUCKETS
    · rw [if_pos hb]
      exact ⟨fun e => absurd rfl e, fun e => absurd hb e⟩
    · rw [if_neg hb]
      exact ⟨fun _ => hb, fun _ => hne⟩
  · intro hv2
    have hb := hgt.1 hv2
    have hvv := llh_record_v_overflow h v hb
    refine ⟨?_, ?_, ?_, ?_, ?_⟩
    · intro hlt
      rw [hov, if_neg hb]
      exact _incrl_of_lt _ hlt
    · intro b s; rw [hvv]
    · intro b s; unfold llh_population_get_bucket_slot; rw [hvv]
    · intro b; exact llh_population_get_bucket_congr _ _ hvv b
    · exact llh_population_get_congr _ _ hvv
  · intro hv2
    have hb : llh_record_bucket v < LLH_BUCKETS := by
      by_contra hcon
      have := hgt.2 hcon
      omega
    rw [hov, if_pos hb]
  · rw [llh_record_overflows, if_pos hb1]
  · rw [llh_record_overflows, if_neg hb2, hin]
  · unfold llh_overflows_get
    rw [llh_record_overflows, if_neg hb2]
    rfl
  · rw [llh_population_get_congr _ _ (llh_record_v_overflow _ _ hb2), llh_population_get_init]
  · unfold llh_overflows_get
    rw [llh_record_overflows, if_neg hb3]
    rfl

/-- Witness of `llh_record_overflow_iff`: the largest 64-bit value recorded into the zero
histogram goes to `overflows`. -/
theorem llh_record_overflow_iff_witness :
    2 ^ 64 - 1 < 2 ^ 64 ∧
      ((llh_record LLH_INIT (2 ^ 64 - 1)).overflows = (LLH_INIT.overflows + 1) % 2 ^ 32 ↔
        2 ^ 64 - 1 > LLH_BUCKET_RANGE_HIGH (LLH_BUCKETS - 1)) ∧
      ((llh_record LLH_INIT (2 ^ 64 - 1)).overflows ≠ LLH_INIT.overflows ↔
        2 ^ 64 - 1 > LLH_BUCKET_RANGE_HIGH (LLH_BUCKETS - 1)) :=
  have h := llh_record_overflow_iff LLH_INIT (2 ^ 64 - 1) (by norm_num)
  ⟨by norm_num, h.2.1, h.2.2.1⟩

/-! ## Runs of `llh_record` calls -/

theorem llh_record_all_nil (h : llh_t) : llh_record_all h [] = h := rfl

theorem llh_record_all_cons (h : llh_t) (v : Nat) (vs : List Nat) :
    llh_record_all h (v :: vs) = llh_record_all (llh_record h v) vs := rfl

theorem llh_record_wf (h : llh_t) (v : Nat) (hwf : h.wf) : (llh_record h v).wf := by
  constructor
  · intro b s
    rw [llh_record_v]
    split
    · exact _incrl_lt _
    · exact hwf.1 b s
  · rw [llh_record_overflows]
    split
    · exact hwf.2
    · exact _incrl_lt _

theorem llh_record_all_wf (vs : List Nat) : ∀ h : llh_t, h.wf → (llh_record_all h vs).wf := by
  induction vs with
  | nil => intro h hwf; exact hwf
  | cons v vs ih =>
    intro h hwf
    rw [llh_record_all_cons]
    exact ih _ (llh_record_wf h v hwf)

/-- After a run, a cell holds its old value plus the number of recorded values whose
computed bucket and slot are its indices, modulo `2 ^ 32`. -/
theorem llh_record_all_v (b : Fin LLH_BUCKETS) (s : Fin LLH_SLOTS_PER_BUCKET)
    (vs : List Nat) : ∀ h : llh_t, h.v b s < 2 ^ 32 →
    (llh_record_all h vs).v b s = (h.v b s + vs.countP (hits b.val s.val)) % 2 ^ 32 := by
  induction vs with
  | nil =>
    intro h hlt
    rw [llh_record_all_nil, List.countP_nil, Nat.add_zero, Nat.mod_eq_of_lt hlt]
  | cons v vs ih =>
    intro h hlt
    have hstep := llh_record_v h v b s
    rw [llh_record_all_cons, List.countP_cons]
    by_cases hc : b.val = llh_record_bucket v ∧ s.val = llh_record_slot v (llh_record_bucket v)
    · rw [if_pos hc] at hstep
      have hh : hits b.val s.val v = true := by simpa [hits] using hc
      rw [ih _ (by rw [hstep]; exact _incrl_lt _), hstep, if_pos hh]
      unfold _incrl
      omega
    · rw [if_neg hc] at hstep
      have hh : ¬ hits b.val s.val v = true := by simpa [hits] using hc
      rw [ih _ (by rw [hstep]; exact hlt), hstep, if_neg hh]
      rfl

/-- After a run, `overflows` holds its old value plus the number of recorded values whose
computed bucket is not below `LLH_BUCKETS`, modulo `2 ^ 32`. -/
theorem llh_record_all_overflows (vs : List Nat) : ∀ h : llh_t, h.overflows < 2 ^ 32 →
    (llh_record_all h vs).overflows =
      (h.overflows + vs.countP (fun v => decide (¬ llh_record_bucket v < LLH_BUCKETS))) % 2 ^ 32 := by
  induction vs with
  | nil =>
    intro h hlt
    rw [llh_record_all_nil, List.countP_nil, Nat.add_zero, Nat.mod_eq_of_lt hlt]
  | cons v vs ih =>
    intro h hlt
    have hstep := llh_record_overflows h v
    rw [llh_record_all_cons, List.countP_cons]
    by_cases hc : llh_record_bucket v < LLH_BUCKETS
    · rw [if_pos hc] at hstep
      rw [ih _ (by rw [hstep]; exact hlt), hstep, if_neg (by simpa using hc)]
      rfl
    · rw [if_neg hc] at hstep
      rw [ih _ (by rw [hstep]; exact _incrl_lt _), hstep, if_pos (by simpa using hc)]
      unfold _incrl
      omega

/-- The counts of the values of a list that a function sends to `i`, summed over `i < n`,
count the values sent below `n`. -/
theorem sum_countP_fin {α : Type} (n : Nat) (f : α → Nat) (q : α → Bool) (l : List α) :
    ∑ i : Fin n, l.countP (fun a => q a && decide (i.val = f a)) =
      l.countP (fun a => q a && decide (f a < n)) := by
  induction l with
  | nil => simp
  | cons a l ih =>
    simp only [List.countP_cons, Finset.sum_add_distrib, ih]
    congr 1
    by_cases hq : q a = true
    · by_cases hf : f a < n
      · rw [Finset.sum_eq_single (⟨f a, hf⟩ : Fin n)]
        · simp [hq, hf]
        · intro i _ hi
          have : ¬ i.val = f a := fun e => hi (Fin.ext e)
          simp [this]
        · intro hcon; exact absurd (Finset.mem_univ _) hcon
      · have : ∀ i : Fin n, ¬ i.val = f a := fun i e => hf (e ▸ i.isLt)
        simp [this, hf]
    · simp [hq]

theorem LLH_SLOT_RANGE_pos (b : Nat) : 0 < LLH_SLOT_RANGE b := by
  rw [LLH_SLOT_RANGE_eq]; split
  · norm_num
  · exact Nat.two_pow_pos _

theorem slot_range_total (b : Nat) :
    LLH_BUCKET_RANGE_LOW b + 16 * LLH_SLOT_RANGE b = LLH_BUCKET_RANGE_HIGH b + 1 := by
  rw [LLH_BUCKET_RANGE_LOW_eq, LLH_SLOT_RANGE_eq, LLH_BUCKET_RANGE_HIGH_eq]
  have hp := Nat.two_pow_pos (b + 4)
  by_cases h : b = 0
  · subst h; norm_num
  · rw [if_neg h, if_neg h, ← pow_split_16 b (by omega)]
    have : 2 ^ (b + 4) = 2 * 2 ^ (b + 3) := by rw [pow_succ]; ring
    omega

theorem bucket_iff (b v : Nat) (hv : v < 2 ^ 64) :
    b = llh_record_bucket v ↔ LLH_BUCKET_RANGE_LOW b ≤ v ∧ v ≤ LLH_BUCKET_RANGE_HIGH b := by
  constructor
  · intro e; subst e; exact llh_record_bucket_range v hv
  · rintro ⟨h1, h2⟩; exact (llh_record_bucket_unique v b hv h1 h2).symm

theorem hits_iff (b s v : Nat) (hv : v < 2 ^ 64) (hs : s < 16) :
    hits b s v = true ↔
      LLH_BUCKET_RANGE_LOW b + s * LLH_SLOT_RANGE b ≤ v ∧
        v < LLH_BUCKET_RANGE_LOW b + (s + 1) * LLH_SLOT_RANGE b := by
  unfold hits
  rw [decide_eq_true_iff]
  constructor
  · rintro ⟨e1, e2⟩
    subst e1; subst e2
    exact llh_record_slot_bounds v hv
  · rintro ⟨h1, h2⟩
    have htot := slot_range_total b
    have hw := LLH_SLOT_RANGE_pos b
    have hle : (s + 1) * LLH_SLOT_RANGE b ≤ 16 * LLH_SLOT_RANGE b :=
      Nat.mul_le_mul_right _ (by omega)
    have hb : b = llh_record_bucket v := (bucket_iff b v hv).2 ⟨by omega, by omega⟩
    refine ⟨hb, ?_⟩
    rw [← hb, (show llh_record_slot v b = _ from hb ▸ (llh_record_slot_range v hv).1)]
    symm
    generalize LLH_SLOT_RANGE b = w at *
    generalize LLH_BUCKET_RANGE_LOW b = l at *
    have : (s + 1) * w = s * w + w := by ring
    apply Nat.div_eq_of_lt_le <;> omega

theorem overflow_iff (v : Nat) (hv : v < 2 ^ 64) :
    ¬ llh_record_bucket v < LLH_BUCKETS ↔ v > LLH_BUCKET_RANGE_HIGH (LLH_BUCKETS - 1) := by
  rw [llh_record_bucket_lt_iff v hv, LLH_BUCKET_RANGE_HIGH_last]; omega

theorem hits_eq (b s : Nat) :
    hits b s = fun v => decide (b = llh_record_bucket v) &&
      decide (s = llh_record_slot v (llh_record_bucket v)) := by
  funext v
  simp [hits, Bool.decide_and]

/-- The cells of one row, summed, count the recorded values of that bucket. -/
theorem sum_hits (b : Nat) (vs : List Nat) (hvs : ∀ v ∈ vs, v < 2 ^ 64) :
    ∑ s : Fin LLH_SLOTS_PER_BUCKET, vs.countP (hits b s.val) =
      vs.countP (fun v => decide (b = llh_record_bucket v)) := by
  simp only [hits_eq]
  rw [sum_countP_fin LLH_SLOTS_PER_BUCKET (fun v => llh_record_slot v (llh_record_bucket v))
    (fun v => decide (b = llh_record_bucket v)) vs]
  apply List.countP_congr
  intro v hv
  have := llh_record_slot_lt v (hvs v hv)
  simp [this]

/-- C5: for every sequence of fewer than `2 ^ 32` 64-bit values recorded in order into the
zero histogram, `llh_population_get(h, b, s)` is the number of values `v` of the sequence
with `low(b) + s * slot_width(b) ≤ v < low(b) + (s + 1) * slot_width(b)`,
`llh_population_get(h, b)` is the number of values with `low(b) ≤ v ≤ high(b)`, and
`llh_overflows_get(h)` is the number of values with `v > high(B-1)`. -/
theorem llh_record_all_counts (vs : List Nat) (hlen : vs.length < 2 ^ 32)
    (hvs : ∀ v ∈ vs, v < 2 ^ 64) :
    (∀ (b : Fin LLH_BUCKETS) (s : Fin LLH_SLOTS_PER_BUCKET),
      llh_population_get_bucket_slot (llh_record_all LLH_INIT vs) b s =
        vs.countP (fun v => decide
          (LLH_BUCKET_RANGE_LOW b.val + s.val * LLH_SLOT_RANGE b.val ≤ v ∧
            v < LLH_BUCKET_RANGE_LOW b.val + (s.val + 1) * LLH_SLOT_RANGE b.val))) ∧
    (∀ b : Fin LLH_BUCKETS,
      llh_population_get_bucket (llh_record_all LLH_INIT vs) b =
        vs.countP (fun v => decide
          (LLH_BUCKET_RANGE_LOW b.val ≤ v ∧ v ≤ LLH_BUCKET_RANGE_HIGH b.val))) ∧
    llh_overflows_get (llh_record_all LLH_INIT vs) =
      vs.countP (fun v => decide (v > LLH_BUCKET_RANGE_HIGH (LLH_BUCKETS - 1))) := by
  have hcell : ∀ (b : Fin LLH_BUCKETS) (s : Fin LLH_SLOTS_PER_BUCKET),
      (llh_record_all LLH_INIT vs).v b s = vs.countP (hits b.val s.val) := by
    intro b s
    have hc : vs.countP (hits b.val s.val) ≤ vs.length := List.countP_le_length _
    rw [llh_record_all_v b s vs LLH_INIT (by simp [LLH_INIT])]
    simp only [LLH_INIT, Nat.zero_add]
    exact Nat.mod_eq_of_lt (by omega)
  refine ⟨?_, ?_, ?_⟩
  · intro b s
    unfold llh_population_get_bucket_slot
    rw [hcell]
    apply List.countP_congr
    intro v hv
    rw [hits_iff b.val s.val v (hvs v hv) s.isLt, decide_eq_true_iff]
  · intro b
    rw [llh_population_get_bucket_eq _ (llh_record_all_wf vs _ LLH_INIT_wf)]
    simp only [hcell]
    rw [sum_hits b.val vs hvs]
    apply List.countP_congr
    intro v hv
    rw [decide_eq_true_iff, decide_eq_true_iff, bucket_iff b.val v (hvs v hv)]
  · unfold llh_overflows_get
    have hc : vs.countP (fun v => decide (¬ llh_record_bucket v < LLH_BUCKETS)) ≤ vs.length :=
      List.countP_le_length _
    rw [llh_record_all_overflows vs LLH_INIT (by simp [LLH_INIT])]
    simp only [LLH_INIT, Nat.zero_add]
    rw [Nat.mod_eq_of_lt (by omega)]
    apply List.countP_congr
    intro v hv
    rw [decide_eq_true_iff, decide_eq_true_iff, overflow_iff v (hvs v hv)]


theorem sample_values_lt : ∀ v ∈ sample_values, v < 2 ^ 64 := by
  intro v hv
  simp only [sample_values, List.mem_cons, List.mem_singleton, List.not_mem_nil, or_false] at hv
  rcases hv with h | h | h | h | h | h <;> subst h <;> norm_num

/-- Witness of `llh_record_all_counts`: in the run `sample_values` two values lie beyond
the last bucket, and `llh_overflows_get` is 2. -/
theorem llh_record_all_counts_witness :
    sample_values.length < 2 ^ 32 ∧ (∀ v ∈ sample_values, v < 2 ^ 64) ∧
      llh_overflows_get (llh_record_all LLH_INIT sample_values) =
        sample_values.countP (fun v => decide (v > LLH_BUCKET_RANGE_HIGH (LLH_BUCKETS - 1))) ∧
      llh_overflows_get (llh_record_all LLH_INIT sample_values) = 2 :=
  ⟨by decide, sample_values_lt,
    (llh_record_all_counts sample_values (by decide) sample_values_lt).2.2, by decide⟩

/-- Recording one value `n` times into the zero histogram. -/
theorem llh_record_all_replicate (n v : Nat) (b : Fin LLH_BUCKETS)
    (s : Fin LLH_SLOTS_PER_BUCKET) :
    (llh_record_all LLH_INIT (List.replicate n v)).v b s =
      if hits b.val s.val v = true then n % 2 ^ 32 else 0 := by
  rw [llh_record_all_v b s _ LLH_INIT (by simp [LLH_INIT]), List.countP_replicate]
  simp only [LLH_INIT, Nat.zero_add]
  split <;> rfl

theorem llh_record_all_replicate_overflows (n v : Nat) (hb : llh_record_bucket v < LLH_BUCKETS) :
    (llh_record_all LLH_INIT (List.replicate n v)).overflows = 0 := by
  rw [llh_record_all_overflows _ LLH_INIT (by simp [LLH_INIT]), List.countP_replicate,
    if_neg (by simpa using hb)]
  rfl

/-- After a number of calls that is a multiple of `2 ^ 32`, all recording one value that
has a bucket, the histogram reads as empty. -/
theorem llh_record_all_replicate_wrap (n v : Nat) (hn : n % 2 ^ 32 = 0)
    (hb : llh_record_bucket v < LLH_BUCKETS) :
    llh_population_get (llh_record_all LLH_INIT (List.replicate n v)) +
      llh_overflows_get (llh_record_all LLH_INIT (List.replicate n v)) = 0 := by
  generalize hl : List.replicate n v = l
  have hv : (llh_record_all LLH_INIT l).v = LLH_INIT.v := by
    funext b s
    rw [← hl, llh_record_all_replicate, hn]
    split <;> rfl
  have ho : (llh_record_all LLH_INIT l).overflows = 0 := by
    rw [← hl]; exact llh_record_all_replicate_overflows n v hb
  unfold llh_overflows_get
  rw [llh_population_get_congr LLH_INIT (llh_record_all LLH_INIT l) hv,
    llh_population_get_init, ho]

/-- C6, as stated, fails: after `2 ^ 32` calls that record the value 0 into the zero
histogram the cell `v[0][0]` has wrapped to 0, and `llh_population_get` plus
`llh_overflows_get` is 0, not the number of calls. -/
theorem llh_record_all_total_counterexample :
    (List.replicate (2 ^ 32) 0).length = 2 ^ 32 ∧
      llh_population_get (llh_record_all LLH_INIT (List.replicate (2 ^ 32) 0)) +
        llh_overflows_get (llh_record_all LLH_INIT (List.replicate (2 ^ 32) 0)) = 0 ∧
      llh_population_get (llh_record_all LLH_INIT (List.replicate (2 ^ 32) 0)) +
        llh_overflows_get (llh_record_all LLH_INIT (List.replicate (2 ^ 32) 0)) ≠
          (List.replicate (2 ^ 32) 0).length := by
  have h1 : (List.replicate (2 ^ 32) 0).length = 2 ^ 32 := List.length_replicate (2 ^ 32) 0
  have h2 := llh_record_all_replicate_wrap (2 ^ 32) 0 (Nat.mod_self _) (by decide)
  refine ⟨h1, h2, ?_⟩
  rw [h1, h2]
  norm_num

/-- The whole table, summed, counts the recorded values that have a bucket. -/
theorem sum_sum_hits (vs : List Nat) (hvs : ∀ v ∈ vs, v < 2 ^ 64) :
    ∑ b : Fin LLH_BUCKETS, ∑ s : Fin LLH_SLOTS_PER_BUCKET, vs.countP (hits b.val s.val) =
      vs.countP (fun v => decide (llh_record_bucket v < LLH_BUCKETS)) := by
  simp only [sum_hits _ vs hvs]
  have := sum_countP_fin LLH_BUCKETS llh_record_bucket (fun _ => true) vs
  simpa only [Bool.true_and] using this

/-- C6 (amended): for any sequence of `n < 2 ^ 32` 64-bit values recorded one after
another into the zero histogram, `llh_population_get(h) + llh_overflows_get(h)` after the
sequence equals `n`. -/
theorem llh_record_all_total (vs : List Nat) (hlen : vs.length < 2 ^ 32)
    (hvs : ∀ v ∈ vs, v < 2 ^ 64) :
    llh_population_get (llh_record_all LLH_INIT vs) +
      llh_overflows_get (llh_record_all LLH_INIT vs) = vs.length := by
  have hcell : ∀ (b : Fin LLH_BUCKETS) (s : Fin LLH_SLOTS_PER_BUCKET),
      (llh_record_all LLH_INIT vs).v b s = vs.countP (hits b.val s.val) := by
    intro b s
    have hc : vs.countP (hits b.val s.val) ≤ vs.length := List.countP_le_length _
    rw [llh_record_all_v b s vs LLH_INIT (by simp [LLH_INIT])]
    simp only [LLH_INIT, Nat.zero_add]
    exact Nat.mod_eq_of_lt (by omega)
  have hc : vs.countP (fun v => decide (¬ llh_record_bucket v < LLH_BUCKETS)) ≤ vs.length :=
    List.countP_le_length _
  have h0 : LLH_INIT.overflows = 0 := rfl
  unfold llh_overflows_get
  rw [llh_population_get_eq _ (llh_record_all_wf vs _ LLH_INIT_wf),
    llh_record_all_overflows vs LLH_INIT (by simp [LLH_INIT]), h0, Nat.zero_add]
  simp only [hcell]
  rw [sum_sum_hits vs hvs, Nat.mod_eq_of_lt (by omega),
    List.length_eq_countP_add_countP (fun v => decide (llh_record_bucket v < LLH_BUCKETS)) vs]
  congr 1
  apply List.countP_congr
  intro v _
  simp

/-- Witness of `llh_record_all_total`: the six values of `sample_values`. -/
theorem llh_record_all_total_witness :
    sample_values.length < 2 ^ 32 ∧ (∀ v ∈ sample_values, v < 2 ^ 64) ∧
      llh_population_get (llh_record_all LLH_INIT sample_values) +
        llh_overflows_get (llh_record_all LLH_INIT sample_values) = sample_values.length ∧
      sample_values.length = 6 :=
  ⟨by decide, sample_values_lt,
    llh_record_all_total sample_values (by decide) sample_values_lt, by decide⟩

theorem llh_record_all_counter_le (vs : List Nat)
    (c : Option (Fin LLH_BUCKETS × Fin LLH_SLOTS_PER_BUCKET)) :
    (llh_record_all LLH_INIT vs).counter c ≤ vs.length := by
  cases c with
  | none =>
    simp only [llh_t.counter]
    rw [llh_record_all_overflows vs LLH_INIT (by simp [LLH_INIT])]
    exact le_trans (Nat.mod_le _ _)
      (by simp only [LLH_INIT, Nat.zero_add]; exact List.countP_le_length _)
  | some p =>
    obtain ⟨b, s⟩ := p
    simp only [llh_t.counter]
    rw [llh_record_all_v b s vs LLH_INIT (by simp [LLH_INIT])]
    exact le_trans (Nat.mod_le _ _)
      (by simp only [LLH_INIT, Nat.zero_add]; exact List.countP_le_length _)

theorem llh_record_counter_le (h : llh_t) (v : Nat)
    (c : Option (Fin LLH_BUCKETS × Fin LLH_SLOTS_PER_BUCKET)) (hc : h.counter c < 2 ^ 32 - 1) :
    h.counter c ≤ (llh_record h v).counter c := by
  cases c with
  | none =>
    simp only [llh_t.counter] at hc ⊢
    rw [llh_record_overflows]
    split
    · exact le_refl _
    · rw [_incrl_of_lt _ hc]; omega
  | some p =>
    obtain ⟨b, s⟩ := p
    simp only [llh_t.counter] at hc ⊢
    rw [llh_record_v]
    split
    · rw [_incrl_of_lt _ hc]; omega
    · exact le_refl _

/-- C7, as stated, fails: the histogram reached from the zero histogram by `2 ^ 32 - 1`
calls that record the value 0 has `2 ^ 32 - 1` in the cell `v[0][0]`, and one more such
call takes that cell down to 0. -/
theorem llh_record_monotone_counterexample :
    (llh_record_all LLH_INIT (List.replicate (2 ^ 32 - 1) 0)).v 0 0 = 2 ^ 32 - 1 ∧
      (llh_record (llh_record_all LLH_INIT (List.replicate (2 ^ 32 - 1) 0)) 0).v 0 0 = 0 ∧
      (llh_record (llh_record_all LLH_INIT (List.replicate (2 ^ 32 - 1) 0)) 0).v 0 0 <
        (llh_record_all LLH_INIT (List.replicate (2 ^ 32 - 1) 0)).v 0 0 := by
  have h1 : (llh_record_all LLH_INIT (List.replicate (2 ^ 32 - 1) 0)).v 0 0 = 2 ^ 32 - 1 := by
    rw [llh_record_all_replicate (2 ^ 32 - 1) 0 0 0, if_pos (by decide)]
    norm_num
  have h2 : (llh_record (llh_record_all LLH_INIT (List.replicate (2 ^ 32 - 1) 0)) 0).v 0 0 = 0 := by
    rw [llh_record_v, if_pos (by decide), h1]
    rfl
  refine ⟨h1, h2, ?_⟩
  rw [h1, h2]
  norm_num

/-- C7 (amended): for every histogram state reachable from the zero histogram by fewer than
`2 ^ 32 - 1` `llh_record` calls, and every value, each cell counter and the overflows
counter after `llh_record` is greater than or equal to its value before the call. More
generally, in any state a call does not lower a counter that holds less than
`2 ^ 32 - 1`. -/
theorem llh_record_monotone (vs : List Nat) (v : Nat) (hlen : vs.length < 2 ^ 32 - 1) :
    (∀ c, (llh_record_all LLH_INIT vs).counter c ≤
      (llh_record (llh_record_all LLH_INIT vs) v).counter c) ∧
    (∀ (h : llh_t) (c : Option (Fin LLH_BUCKETS × Fin LLH_SLOTS_PER_BUCKET)),
      h.counter c < 2 ^ 32 - 1 → h.counter c ≤ (llh_record h v).counter c) := by
  refine ⟨?_, fun h c hc => llh_record_counter_le h v c hc⟩
  intro c
  have := llh_record_all_counter_le vs c
  exact llh_record_counter_le _ v c (by omega)

/-- Witness of `llh_record_monotone`: the value 5 recorded after the run `sample_values`. -/
theorem llh_record_monotone_witness :
    sample_values.length < 2 ^ 32 - 1 ∧
      ∀ c, (llh_record_all LLH_INIT sample_values).counter c ≤
        (llh_record (llh_record_all LLH_INIT sample_values) 5).counter c :=
  ⟨by decide, (llh_record_monotone sample_values 5 (by decide)).1⟩

theorem llh_full_wf : llh_full.wf := by
  constructor
  · intro b s; simp [llh_full]
  · simp [llh_full]

/-- C8: for every histogram state with 32-bit counters, `llh_population_get(h)` is the exact
sum of all `B * S` cell counters, which is below `2 ^ 64`; `llh_population_get(h, b)` is the
exact sum of the `S` counters of bucket `b`; `llh_population_get(h, b, s)` is the counter
`v[b][s]`; and `llh_population_get(h)` is the sum over the buckets of
`llh_population_get(h, b)`. -/
theorem llh_population_get_exact (h : llh_t) (hwf : h.wf) :
    llh_population_get h = ∑ b : Fin LLH_BUCKETS, ∑ s : Fin LLH_SLOTS_PER_BUCKET, h.v b s ∧
      ∑ b : Fin LLH_BUCKETS, ∑ s : Fin LLH_SLOTS_PER_BUCKET, h.v b s < 2 ^ 64 ∧
      (∀ b : Fin LLH_BUCKETS,
        llh_population_get_bucket h b = ∑ s : Fin LLH_SLOTS_PER_BUCKET, h.v b s) ∧
      (∀ (b : Fin LLH_BUCKETS) (s : Fin LLH_SLOTS_PER_BUCKET),
        llh_population_get_bucket_slot h b s = h.v b s) ∧
      llh_population_get h = ∑ b : Fin LLH_BUCKETS, llh_population_get_bucket h b := by
  have ht := table_sum_le h hwf
  refine ⟨llh_population_get_eq h hwf, by omega, fun b => llh_population_get_bucket_eq h hwf b,
    fun b s => rfl, ?_⟩
  rw [llh_population_get_eq h hwf]
  exact Finset.sum_congr rfl (fun b _ => (llh_population_get_bucket_eq h hwf b).symm)

/-- Witness of `llh_population_get_exact`: with `2 ^ 32 - 1` in every counter the total is
`24 * 16 * (2 ^ 32 - 1)`, past `2 ^ 40`, and it is not reduced modulo `2 ^ 64`. -/
theorem llh_population_get_exact_witness :
    llh_full.wf ∧ llh_population_get llh_full = 24 * 16 * (2 ^ 32 - 1) ∧
      (∀ b : Fin LLH_BUCKETS, llh_population_get_bucket llh_full b = 16 * (2 ^ 32 - 1)) := by
  have h := llh_population_get_exact llh_full llh_full_wf
  refine ⟨llh_full_wf, ?_, ?_⟩
  · rw [h.1]; simp [llh_full, LLH_BUCKETS, LLH_SLOTS_PER_BUCKET]
  · intro b; rw [h.2.2.1 b]; simp [llh_full, LLH_SLOTS_PER_BUCKET]

/-! ## The coverage tests -/

theorem llh_population_get_bucket_slot_eq (h : llh_t) (b : Fin LLH_BUCKETS)
    (s : Fin LLH_SLOTS_PER_BUCKET) : llh_population_get_bucket_slot h b s = h.v b s := rfl

/-- The value at the start of slot `s` of bucket `b` is routed to the cell `v[b][s]`. -/
theorem grid_value (b s : Nat) (hb : b < LLH_BUCKETS) (hs : s < LLH_SLOTS_PER_BUCKET) :
    llh_record_bucket (s * LLH_SLOT_RANGE b + LLH_BUCKET_RANGE_LOW b) = b ∧
      llh_record_slot (s * LLH_SLOT_RANGE b + LLH_BUCKET_RANGE_LOW b)
        (llh_record_bucket (s * LLH_SLOT_RANGE b + LLH_BUCKET_RANGE_LOW b)) = s := by
  have htot := slot_range_total b
  have hw := LLH_SLOT_RANGE_pos b
  have hle : (s + 1) * LLH_SLOT_RANGE b ≤ 16 * LLH_SLOT_RANGE b :=
    Nat.mul_le_mul_right _ (by unfold LLH_SLOTS_PER_BUCKET at hs; omega)
  have hexp : (s + 1) * LLH_SLOT_RANGE b = s * LLH_SLOT_RANGE b + LLH_SLOT_RANGE b := by ring
  have hhigh : LLH_BUCKET_RANGE_HIGH b + 1 ≤ 2 ^ 27 := by
    rw [LLH_BUCKET_RANGE_HIGH_eq]
    have : 2 ^ (b + 4) ≤ 2 ^ 27 :=
      Nat.pow_le_pow_right (by norm_num) (by unfold LLH_BUCKETS at hb; omega)
    have := Nat.two_pow_pos (b + 4)
    omega
  have hv : s * LLH_SLOT_RANGE b + LLH_BUCKET_RANGE_LOW b < 2 ^ 64 := by omega
  have hh := (hits_iff b s _ hv hs).2 ⟨by omega, by omega⟩
  unfold hits at hh
  rw [decide_eq_true_iff] at hh
  exact ⟨hh.1.symm, hh.2.symm⟩

theorem hits_grid (b s b' s' : Nat) (hb : b' < LLH_BUCKETS) (hs : s' < LLH_SLOTS_PER_BUCKET) :
    hits b s (s' * LLH_SLOT_RANGE b' + LLH_BUCKET_RANGE_LOW b') = decide (b = b' ∧ s = s') := by
  obtain ⟨h1, h2⟩ := grid_value b' s' hb hs
  unfold hits
  rw [h2, h1]

theorem countP_range_slots : ∀ i : Fin LLH_SLOTS_PER_BUCKET,
    (List.range LLH_SLOTS_PER_BUCKET).countP (fun j => decide (i.val = j)) = 1 := by decide

theorem countP_range_buckets : ∀ i : Fin LLH_BUCKETS,
    (List.range LLH_BUCKETS).countP (fun j => decide (i.val = j)) = 1 := by decide

theorem _test_llh_record_bucket_loop_eq (bucket : Nat) :
    _test_llh_record_bucket_loop bucket =
      llh_record_all LLH_INIT ((List.range LLH_SLOTS_PER_BUCKET).map
        (fun i => i * LLH_SLOT_RANGE bucket + LLH_BUCKET_RANGE_LOW bucket)) := rfl

theorem _test_llh_record_slot_loop_eq (slot : Nat) :
    _test_llh_record_slot_loop slot =
      llh_record_all LLH_INIT ((List.range LLH_BUCKETS).map
        (fun i => slot * LLH_SLOT_RANGE i + LLH_BUCKET_RANGE_LOW i)) := rfl

theorem _test_llh_record_bucket_loop_wf (bucket : Nat) :
    (_test_llh_record_bucket_loop bucket).wf := by
  rw [_test_llh_record_bucket_loop_eq]
  exact llh_record_all_wf _ _ LLH_INIT_wf

theorem _test_llh_record_slot_loop_wf (slot : Nat) :
    (_test_llh_record_slot_loop slot).wf := by
  rw [_test_llh_record_slot_loop_eq]
  exact llh_record_all_wf _ _ LLH_INIT_wf

theorem _test_llh_record_bucket_loop_v (bucket b : Fin LLH_BUCKETS)
    (s : Fin LLH_SLOTS_PER_BUCKET) :
    (_test_llh_record_bucket_loop bucket.val).v b s = if b = bucket then 1 else 0 := by
  rw [_test_llh_record_bucket_loop_eq]
  rw [llh_record_all_v b s _ LLH_INIT (by simp [LLH_INIT]), List.countP_map]
  have h0 : LLH_INIT.v b s = 0 := rfl
  rw [h0, Nat.zero_add]
  by_cases hb : b = bucket
  · rw [if_pos hb, List.countP_congr (q := fun j => decide (s.val = j)), countP_range_slots]
    · rfl
    · intro j hj
      rw [List.mem_range] at hj
      simp only [Function.comp_apply, hits_grid _ _ _ _ bucket.isLt hj, hb, true_and]
  · rw [if_neg hb, List.countP_congr (q := fun _ => false)]
    · simp
    · intro j hj
      rw [List.mem_range] at hj
      have : ¬ b.val = bucket.val := fun e => hb (Fin.ext e)
      simp [hits_grid _ _ _ _ bucket.isLt hj, this]

/-- C9: for every bucket `b` in `0..B-1`, recording into the zero histogram the `S` values
`LLH_BUCKET_RANGE_LOW(b) + i * LLH_SLOT_RANGE(b)` for `i = 0..S-1` gives
`llh_population_get(h, b, i) = 1` for every slot `i` and `llh_population_get(h, b) = S`. -/
theorem _test_llh_record_bucket_ok (bucket : Fin LLH_BUCKETS) :
    (∀ i : Fin LLH_SLOTS_PER_BUCKET,
      llh_population_get_bucket_slot (_test_llh_record_bucket_loop bucket.val) bucket i = 1) ∧
    llh_population_get_bucket (_test_llh_record_bucket_loop bucket.val) bucket =
      LLH_SLOTS_PER_BUCKET := by
  constructor
  · intro i
    rw [llh_population_get_bucket_slot_eq, _test_llh_record_bucket_loop_v, if_pos rfl]
  · rw [llh_population_get_bucket_eq _ (_test_llh_record_bucket_loop_wf _)]
    simp only [_test_llh_record_bucket_loop_v, if_true]
    simp

theorem _test_llh_record_slot_loop_v (slot s : Fin LLH_SLOTS_PER_BUCKET)
    (b : Fin LLH_BUCKETS) :
    (_test_llh_record_slot_loop slot.val).v b s = if s = slot then 1 else 0 := by
  rw [_test_llh_record_slot_loop_eq]
  rw [llh_record_all_v b s _ LLH_INIT (by simp [LLH_INIT]), List.countP_map]
  have h0 : LLH_INIT.v b s = 0 := rfl
  rw [h0, Nat.zero_add]
  by_cases hs : s = slot
  · rw [if_pos hs, List.countP_congr (q := fun j => decide (b.val = j)), countP_range_buckets]
    · rfl
    · intro j hj
      rw [List.mem_range] at hj
      simp only [Function.comp_apply, hits_grid _ _ _ _ hj slot.isLt, hs, and_true]
  · rw [if_neg hs, List.countP_congr (q := fun _ => false)]
    · simp
    · intro j hj
      rw [List.mem_range] at hj
      have : ¬ s.val = slot.val := fun e => hs (Fin.ext e)
      simp [hits_grid _ _ _ _ hj slot.isLt, this]

/-- C10: for every slot index `s` in `0..S-1`, recording into the zero histogram, for each
bucket `i` in `0..B-1`, the value `LLH_BUCKET_RANGE_LOW(i) + s * LLH_SLOT_RANGE(i)` gives
`llh_population_get(h, i, s) = 1` and `llh_population_get(h, i) = 1` for every bucket `i`,
and `llh_population_get(h) = B`. -/
theorem _test_llh_record_slot_ok (slot : Fin LLH_SLOTS_PER_BUCKET) :
    (∀ i : Fin LLH_BUCKETS,
      llh_population_get_bucket_slot (_test_llh_record_slot_loop slot.val) i slot = 1) ∧
    (∀ i : Fin LLH_BUCKETS,
      llh_population_get_bucket (_test_llh_record_slot_loop slot.val) i = 1) ∧
    llh_population_get (_test_llh_record_slot_loop slot.val) = LLH_BUCKETS := by
  refine ⟨?_, ?_, ?_⟩
  · intro i
    rw [llh_population_get_bucket_slot_eq, _test_llh_record_slot_loop_v, if_pos rfl]
  · intro i
    rw [llh_population_get_bucket_eq _ (_test_llh_record_slot_loop_wf _)]
    simp only [_test_llh_record_slot_loop_v]
    simp
  · rw [llh_population_get_eq _ (_test_llh_record_slot_loop_wf _)]
    simp only [_test_llh_record_slot_loop_v]
    simp

/-! ## A single insertion and the zero histogram -/

theorem llh_record_init_small_v (v : Nat) (hv : v < LLH_SLOTS_PER_BUCKET)
    (b : Fin LLH_BUCKETS) (s : Fin LLH_SLOTS_PER_BUCKET) :
    (llh_record LLH_INIT v).v b s = if b.val = 0 ∧ s.val = v then 1 else 0 := by
  rw [llh_record_v, llh_record_bucket_small v hv, llh_record_slot_zero]
  split <;> rfl

theorem sum_slots_single (v : Nat) (hv : v < LLH_SLOTS_PER_BUCKET) :
    ∑ s : Fin LLH_SLOTS_PER_BUCKET, (if s.val = v then 1 else 0) = 1 := by
  rw [Finset.sum_eq_single (⟨v, hv⟩ : Fin LLH_SLOTS_PER_BUCKET)]
  · simp
  · intro s _ hs
    rw [if_neg (fun e => hs (Fin.ext e))]
  · intro hcon; exact absurd (Finset.mem_univ _) hcon

/-- C11: for every value `v < S = 16`, after one `llh_record(h, v)` on the zero histogram
`llh_population_get(h, 0, v) = 1`, every other cell is 0, `llh_population_get(h, 0) = 1`,
`llh_population_get(h) = 1` and `llh_overflows_get(h) = 0`. -/
theorem llh_record_single (v : Nat) (hv : v < LLH_SLOTS_PER_BUCKET) :
    llh_population_get_bucket_slot (llh_record LLH_INIT v) 0 ⟨v, hv⟩ = 1 ∧
      (∀ (b : Fin LLH_BUCKETS) (s : Fin LLH_SLOTS_PER_BUCKET),
        ¬ (b.val = 0 ∧ s.val = v) → (llh_record LLH_INIT v).v b s = 0) ∧
      llh_population_get_bucket (llh_record LLH_INIT v) 0 = 1 ∧
      llh_population_get (llh_record LLH_INIT v) = 1 ∧
      llh_overflows_get (llh_record LLH_INIT v) = 0 := by
  have hwf := llh_record_wf LLH_INIT v LLH_INIT_wf
  have hb : llh_record_bucket v < LLH_BUCKETS := by
    rw [llh_record_bucket_small v hv]; norm_num
  refine ⟨?_, ?_, ?_, ?_, ?_⟩
  · rw [llh_population_get_bucket_slot_eq, llh_record_init_small_v v hv, if_pos ⟨rfl, rfl⟩]
  · intro b s hne
    rw [llh_record_init_small_v v hv, if_neg hne]
  · rw [llh_population_get_bucket_eq _ hwf]
    simp only [llh_record_init_small_v v hv]
    simpa using sum_slots_single v hv
  · rw [llh_population_get_eq _ hwf]
    simp only [llh_record_init_small_v v hv]
    rw [Finset.sum_eq_single (0 : Fin LLH_BUCKETS)]
    · simpa using sum_slots_single v hv
    · intro b _ hb0
      have : ¬ b.val = 0 := fun e => hb0 (Fin.ext e)
      simp [this]
    · intro hcon; exact absurd (Finset.mem_univ _) hcon
  · unfold llh_overflows_get
    rw [llh_record_overflows, if_pos hb]
    rfl

/-- Witness of `llh_record_single`: the value 0 of `_test_llh_record` lands in bucket 0,
slot 0. -/
theorem llh_record_single_witness :
    (0 : Nat) < LLH_SLOTS_PER_BUCKET ∧
      llh_population_get_bucket_slot (llh_record LLH_INIT 0) 0 0 = 1 ∧
      llh_population_get_bucket (llh_record LLH_INIT 0) 0 = 1 ∧
      llh_population_get (llh_record LLH_INIT 0) = 1 ∧
      llh_overflows_get (llh_record LLH_INIT 0) = 0 :=
  have h := llh_record_single 0 (by decide)
  ⟨by decide, h.1, h.2.2.1, h.2.2.2.1, h.2.2.2.2⟩

/-- C12: a histogram initialized with `LLH_INIT` has every cell counter equal to 0,
`llh_population_get(h) = 0`, `llh_population_get(h, b) = 0` for every bucket `b < B`, and
`llh_overflows_get(h) = 0`. -/
theorem LLH_INIT_zero :
    (∀ (b : Fin LLH_BUCKETS) (s : Fin LLH_SLOTS_PER_BUCKET), LLH_INIT.v b s = 0) ∧
      (∀ (b : Fin LLH_BUCKETS) (s : Fin LLH_SLOTS_PER_BUCKET),
        llh_population_get_bucket_slot LLH_INIT b s = 0) ∧
      llh_population_get LLH_INIT = 0 ∧
      (∀ b : Fin LLH_BUCKETS, llh_population_get_bucket LLH_INIT b = 0) ∧
      llh_overflows_get LLH_INIT = 0 :=
  ⟨fun _ _ => rfl, fun _ _ => rfl, llh_population_get_init,
    llh_population_get_bucket_init, rfl⟩

/-! ## Absence of undefined behaviour in `llh_record` -/

theorem int_shl_one (n : Nat) (hn : n < 31) : int_shl 1 n = some ((2 ^ n : Nat) : Int) := by
  have h1 : (2 : Int) ^ n < 2 ^ 31 := pow_lt_pow_right₀ (by norm_num) hn
  have h2 : (0 : Int) < 2 ^ n := by positivity
  unfold int_shl int_result
  rw [if_pos ⟨by norm_num, by omega⟩, if_pos ⟨by omega, by simpa using h1⟩]
  simp

theorem uint64_of_int_natCast (k : Nat) (hk : k < 2 ^ 64) : uint64_of_int (k : Int) = k := by
  unfold uint64_of_int
  omega

theorem two_pow_lt_int (n : Nat) (hn : n < 31) : (2 : Nat) ^ n < 2 ^ 31 :=
  Nat.pow_lt_pow_right (by norm_num) hn

theorem llh_record_bucket_checked_eq (v : Nat) :
    llh_record_bucket_checked v = some (llh_record_bucket v) := by
  unfold llh_record_bucket_checked llh_record_bucket
  by_cases h : v < LLH_SLOTS_PER_BUCKET
  · rw [if_pos h, if_pos h]
  · rw [if_neg h, if_neg h]
    have hx : ¬ v >>> LLH_SCALE = 0 := by
      rw [LLH_SCALE_eq, Nat.shiftRight_eq_div_pow]
      unfold LLH_SLOTS_PER_BUCKET at h
      omega
    unfold __builtin_clzll_checked
    rw [if_neg hx]
    rfl

theorem llh_record_slot_checked_eq (v b : Nat) (hb : b < LLH_BUCKETS) :
    llh_record_slot_checked v b = some (llh_record_slot v b) := by
  unfold llh_record_slot_checked llh_record_slot
  by_cases h0 : 0 = b
  · rw [if_pos h0, if_pos h0]
  · rw [if_neg h0, if_neg h0, LLH_SCALE_eq]
    have hn : b + 3 < 31 := by unfold LLH_BUCKETS at hb; omega
    have hp := two_pow_lt_int (b + 3) hn
    have hp0 := Nat.two_pow_pos (b + 3)
    have hsplit := pow_split_16 b (by omega)
    have hq0 := Nat.two_pow_pos (b - 1)
    have hsub : int_sub ((2 ^ (b + 3) : Nat) : Int) 1 = some ((2 ^ (b + 3) - 1 : Nat) : Int) := by
      unfold int_sub int_result
      rw [if_pos ⟨by omega, by omega⟩]
      congr 1
      omega
    have hdiv : int_div ((2 ^ (b + 3) : Nat) : Int) (LLH_SLOTS_PER_BUCKET : Nat) =
        some ((2 ^ (b + 3) / LLH_SLOTS_PER_BUCKET : Nat) : Int) := by
      unfold int_div int_result
      rw [if_neg (by norm_num)]
      have e : Int.tdiv ((2 ^ (b + 3) : Nat) : Int) ((LLH_SLOTS_PER_BUCKET : Nat) : Int) =
          ((2 ^ (b + 3) / LLH_SLOTS_PER_BUCKET : Nat) : Int) := rfl
      rw [e, if_pos]
      have : 2 ^ (b + 3) / LLH_SLOTS_PER_BUCKET ≤ 2 ^ (b + 3) := Nat.div_le_self _ _
      generalize 2 ^ (b + 3) / LLH_SLOTS_PER_BUCKET = q at this ⊢
      constructor <;> omega
    rw [int_shl_one _ hn, Nat.one_shiftLeft, Option.some_bind, hsub, Option.some_bind,
      Option.some_bind, hdiv, Option.some_bind]
    rw [uint64_of_int_natCast _ (by omega), uint64_of_int_natCast _
      (lt_of_le_of_lt (Nat.div_le_self _ _) (by omega))]
    unfold uint64_div
    rw [if_neg]
    rw [hsplit, Nat.mul_div_cancel_left _ (by norm_num)]
    omega

/-- C14: `llh_record` has no failing path for any 64-bit value `v`: the checked function,
which fails on `__builtin_clzll(0)`, on an `int` shift or result out of range, on a zero
divisor and on an index outside `v[24][16]`, always returns the state that `llh_record`
computes. In particular `v >> K ≥ 2` whenever `v ≥ S`; a bucket below `B` comes with a
slot below `S`; the shift amount `bucket + K` on the cell path is at most 26, so
`1 << (bucket + K)` is below `2 ^ 31`; and the divisor `(1 << (bucket + K)) / S` is not 0
for any bucket in `1..B-1`. -/
theorem llh_record_no_failure (h : llh_t) (v : Nat) (hv : v < 2 ^ 64) :
    llh_record_checked h v = some (llh_record h v) ∧
      (v ≥ LLH_SLOTS_PER_BUCKET → v >>> LLH_SCALE ≥ 2 ∧
        __builtin_clzll_checked (v >>> LLH_SCALE) = some (__builtin_clzll (v >>> LLH_SCALE))) ∧
      (llh_record_bucket v < LLH_BUCKETS →
        llh_record_slot v (llh_record_bucket v) < LLH_SLOTS_PER_BUCKET) ∧
      (llh_record_bucket v < LLH_BUCKETS →
        llh_record_bucket v + LLH_SCALE ≤ 26 ∧
          1 <<< (llh_record_bucket v + LLH_SCALE) < 2 ^ 31 ∧
          int_shl 1 (llh_record_bucket v + LLH_SCALE) =
            some ((1 <<< (llh_record_bucket v + LLH_SCALE) : Nat) : Int)) ∧
      (∀ b, 1 ≤ b → b < LLH_BUCKETS →
        (1 <<< (b + LLH_SCALE)) / LLH_SLOTS_PER_BUCKET ≠ 0) := by
  have hs := llh_record_slot_lt v hv
  refine ⟨?_, ?_, fun _ => hs, ?_, ?_⟩
  · unfold llh_record_checked llh_record
    rw [llh_record_bucket_checked_eq]
    simp only [Option.some_bind]
    by_cases hb : LLH_BUCKETS > llh_record_bucket v
    · rw [if_pos hb, if_pos hb, llh_record_slot_checked_eq v _ hb]
      simp only [Option.some_bind]
      rw [if_pos hs]
    · rw [if_neg hb, if_neg hb]
  · intro h16
    have hx : 2 ≤ v >>> LLH_SCALE := by
      rw [LLH_SCALE_eq, Nat.shiftRight_eq_div_pow]
      unfold LLH_SLOTS_PER_BUCKET at h16
      omega
    refine ⟨hx, ?_⟩
    unfold __builtin_clzll_checked
    rw [if_neg (by omega)]
  · intro hb
    rw [LLH_SCALE_eq, Nat.one_shiftLeft]
    have hn : llh_record_bucket v + 3 < 31 := by unfold LLH_BUCKETS at hb; omega
    refine ⟨by unfold LLH_BUCKETS at hb; omega, two_pow_lt_int _ hn, int_shl_one _ hn⟩
  · intro b h1 _
    rw [LLH_SCALE_eq, Nat.one_shiftLeft, pow_split_16 b h1, Nat.mul_div_cancel_left _ (by norm_num)]
    exact Nat.pos_iff_ne_zero.1 (Nat.two_pow_pos _)

/-- Witness of `llh_record_no_failure`: the largest 64-bit value. -/
theorem llh_record_no_failure_witness :
    2 ^ 64 - 1 < 2 ^ 64 ∧
      llh_record_checked LLH_INIT (2 ^ 64 - 1) = some (llh_record LLH_INIT (2 ^ 64 - 1)) :=
  ⟨by norm_num, (llh_record_no_failure LLH_INIT (2 ^ 64 - 1) (by norm_num)).1⟩

/-! ## The bit scan and the binary logarithm -/

theorem pow_bounds_unique (x a b : Nat) (ha : 2 ^ a ≤ x) (ha' : x < 2 ^ (a + 1))
    (hb : 2 ^ b ≤ x) (hb' : x < 2 ^ (b + 1)) : a = b := by
  rcases Nat.lt_trichotomy a b with h | h | h
  · have : 2 ^ (a + 1) ≤ 2 ^ b := Nat.pow_le_pow_right (by norm_num) h
    omega
  · exact h
  · have : 2 ^ (b + 1) ≤ 2 ^ a := Nat.pow_le_pow_right (by norm_num) h
    omega

theorem naive_log2_loop_spec : ∀ (fuel x : Nat), 0 < x → x < 2 ^ fuel →
    2 ^ naive_log2_loop fuel x ≤ x ∧ x < 2 ^ (naive_log2_loop fuel x + 1) := by
  intro fuel
  induction fuel with
  | zero => intro x h0 hx; simp at hx; omega
  | succ n ih =>
    intro x h0 hx
    unfold naive_log2_loop
    by_cases h1 : x ≤ 1
    · rw [if_pos h1]
      have : x = 1 := by omega
      subst this
      norm_num
    · rw [if_neg h1]
      have e : 2 ^ (n + 1) = 2 * 2 ^ n := by rw [pow_succ]; ring
      obtain ⟨h2, h3⟩ := ih (x / 2) (by omega) (by omega)
      generalize naive_log2_loop n (x / 2) = k at *
      have e1 : 2 ^ (k + 1) = 2 * 2 ^ k := by rw [pow_succ]; ring
      have e2 : 2 ^ (k + 1 + 1) = 2 * 2 ^ (k + 1) := by rw [pow_succ]; ring
      constructor <;> omega

theorem log2_bounds (x : Nat) (h0 : 0 < x) : 2 ^ Nat.log2 x ≤ x ∧ x < 2 ^ (Nat.log2 x + 1) :=
  ⟨Nat.log2_self_le (by omega), Nat.lt_log2_self⟩

theorem testBit_of_bounds (x b : Nat) (h1 : 2 ^ b ≤ x) (h2 : x < 2 ^ (b + 1)) :
    x.testBit b = true ∧ ∀ i, i > b → x.testBit i = false := by
  constructor
  · rw [Nat.testBit_to_div_mod, decide_eq_true_iff]
    have e : 2 ^ (b + 1) = 2 ^ b * 2 := by rw [pow_succ]
    have hq : x / 2 ^ b = 1 := by
      apply Nat.div_eq_of_lt_le <;> omega
    rw [hq]
  · intro i hi
    exact Nat.testBit_lt_two_pow
      (lt_of_lt_of_le h2 (Nat.pow_le_pow_right (by norm_num) hi))

/-- C15: for every 64-bit value `v ≥ S`, the bit-scan bucket `clzll(v >> K) XOR 63` is the
position of the highest set bit of `v >> K`, which is `floor(log2(v >> K))` and equals
`floor(log2(v)) - K`, and it is the result of the naive loop that counts how many times
`v >> K` can be halved before reaching 1 (64 rounds of fuel are enough: more fuel returns
the same). -/
theorem llh_record_bucket_log2 (v : Nat) (h16 : LLH_SLOTS_PER_BUCKET ≤ v) (hv : v < 2 ^ 64) :
    llh_record_bucket v = __builtin_clzll (v >>> LLH_SCALE) ^^^ 63 ∧
      (v >>> LLH_SCALE).testBit (__builtin_clzll (v >>> LLH_SCALE) ^^^ 63) = true ∧
      (∀ i, i > __builtin_clzll (v >>> LLH_SCALE) ^^^ 63 →
        (v >>> LLH_SCALE).testBit i = false) ∧
      2 ^ (__builtin_clzll (v >>> LLH_SCALE) ^^^ 63) ≤ v >>> LLH_SCALE ∧
      v >>> LLH_SCALE < 2 ^ ((__builtin_clzll (v >>> LLH_SCALE) ^^^ 63) + 1) ∧
      __builtin_clzll (v >>> LLH_SCALE) ^^^ 63 = Nat.log2 (v >>> LLH_SCALE) ∧
      __builtin_clzll (v >>> LLH_SCALE) ^^^ 63 = Nat.log2 v - LLH_SCALE ∧
      __builtin_clzll (v >>> LLH_SCALE) ^^^ 63 = naive_log2 (v >>> LLH_SCALE) ∧
      (∀ fuel, 64 ≤ fuel →
        naive_log2_loop fuel (v >>> LLH_SCALE) = naive_log2 (v >>> LLH_SCALE)) := by
  have h16' : 16 ≤ v := h16
  have hbk : llh_record_bucket v = __builtin_clzll (v >>> LLH_SCALE) ^^^ 63 := by
    unfold llh_record_bucket
    rw [if_neg (by unfold LLH_SLOTS_PER_BUCKET; omega)]
  obtain ⟨_, _, hlo, hhi⟩ := llh_record_bucket_large v h16' hv
  rw [← hbk, LLH_SCALE_eq, Nat.shiftRight_eq_div_pow]
  generalize llh_record_bucket v = b at *
  have e3 : 2 ^ (b + 3) = 2 ^ b * 8 := by rw [pow_add]; norm_num
  have e4 : 2 ^ (b + 4) = 2 ^ (b + 1) * 8 := by rw [pow_add, pow_add]; ring
  have hx1 : 2 ^ b ≤ v / 2 ^ 3 := by omega
  have hx2 : v / 2 ^ 3 < 2 ^ (b + 1) := by omega
  have hx0 : 0 < v / 2 ^ 3 := by omega
  have hx64 : v / 2 ^ 3 < 2 ^ 64 := by omega
  obtain ⟨ht1, ht2⟩ := testBit_of_bounds _ b hx1 hx2
  obtain ⟨hl1, hl2⟩ := log2_bounds _ hx0
  obtain ⟨hv1, hv2⟩ := log2_bounds v (by omega)
  obtain ⟨hn1, hn2⟩ := naive_log2_loop_spec 64 _ hx0 hx64
  refine ⟨rfl, ht1, ht2, hx1, hx2, pow_bounds_unique _ _ _ hx1 hx2 hl1 hl2, ?_,
    pow_bounds_unique _ _ _ hx1 hx2 hn1 hn2, ?_⟩
  · have : b + 3 = Nat.log2 v :=
      pow_bounds_unique v _ _ hlo (by rw [show b + 3 + 1 = b + 4 by omega]; exact hhi) hv1 hv2
    omega
  · intro fuel hf
    have hxf : v / 2 ^ 3 < 2 ^ fuel :=
      lt_of_lt_of_le hx64 (Nat.pow_le_pow_right (by norm_num) hf)
    obtain ⟨hf1, hf2⟩ := naive_log2_loop_spec fuel _ hx0 hxf
    exact pow_bounds_unique _ _ _ hf1 hf2 hn1 hn2

/-- Witness of `llh_record_bucket_log2`: for `v = 1000`, `v >> 3 = 125` has its highest
set bit at position 6. -/
theorem llh_record_bucket_log2_witness :
    LLH_SLOTS_PER_BUCKET ≤ 1000 ∧ 1000 < 2 ^ 64 ∧
      llh_record_bucket 1000 = __builtin_clzll (1000 >>> LLH_SCALE) ^^^ 63 ∧
      __builtin_clzll (1000 >>> LLH_SCALE) ^^^ 63 = naive_log2 (1000 >>> LLH_SCALE) ∧
      naive_log2 (1000 >>> LLH_SCALE) = 6 :=
  have h := llh_record_bucket_log2 1000 (by decide) (by norm_num)
  ⟨by decide, by norm_num, h.1, h.2.2.2.2.2.2.2.1, by decide⟩

/-! ## The geometry macros -/

theorem int_sub_natCast (a b : Nat) (hba : b ≤ a) (ha : a < 2 ^ 31) :
    int_sub (a : Int) (b : Int) = some ((a - b : Nat) : Int) := by
  unfold int_sub int_result
  rw [if_pos ⟨by omega, by omega⟩]
  congr 1
  omega

theorem int_add_natCast (a b : Nat) (h : a + b < 2 ^ 31) :
    int_add (a : Int) (b : Int) = some ((a + b : Nat) : Int) := by
  unfold int_add int_result
  rw [if_pos ⟨by omega, by omega⟩]
  congr 1

theorem int_div_natCast (a b : Nat) (hb : b ≠ 0) (ha : a < 2 ^ 31) :
    int_div (a : Int) (b : Int) = some ((a / b : Nat) : Int) := by
  unfold int_div int_result
  rw [if_neg (by exact_mod_cast hb)]
  have e : Int.tdiv (a : Int) (b : Int) = ((a / b : Nat) : Int) := rfl
  have hq : a / b ≤ a := Nat.div_le_self _ _
  rw [e, if_pos]
  generalize a / b = q at hq ⊢
  constructor <;> omega

theorem LLH_BUCKET_RANGE_HIGH_le (b : Nat) (hb : b < LLH_BUCKETS) :
    LLH_BUCKET_RANGE_HIGH b + 1 ≤ 2 ^ 27 := by
  rw [LLH_BUCKET_RANGE_HIGH_eq]
  have : 2 ^ (b + 4) ≤ 2 ^ 27 :=
    Nat.pow_le_pow_right (by norm_num) (by unfold LLH_BUCKETS at hb; omega)
  have := Nat.two_pow_pos (b + 4)
  omega

theorem LLH_BUCKET_RANGE_LOW_le_high (b : Nat) :
    LLH_BUCKET_RANGE_LOW b ≤ LLH_BUCKET_RANGE_HIGH b := by
  have := slot_range_total b
  have := LLH_SLOT_RANGE_pos b
  omega

theorem LLH_BUCKET_RANGE_LOW_int_eq (b : Nat) (hb : b < LLH_BUCKETS) :
    LLH_BUCKET_RANGE_LOW_int b = some (LLH_BUCKET_RANGE_LOW b : Int) := by
  unfold LLH_BUCKET_RANGE_LOW_int
  rw [LLH_BUCKET_RANGE_LOW_eq, LLH_SCALE_eq]
  by_cases h0 : b = 0
  · subst h0; rfl
  · rw [if_neg (fun e => h0 e.symm), if_neg h0,
      int_shl_one _ (by unfold LLH_BUCKETS at hb; omega)]

theorem LLH_BUCKET_RANGE_HIGH_int_eq (b : Nat) (hb : b < LLH_BUCKETS) :
    LLH_BUCKET_RANGE_HIGH_int b = some (LLH_BUCKET_RANGE_HIGH b : Int) := by
  have hn : b + 3 + 1 < 31 := by unfold LLH_BUCKETS at hb; omega
  have hp := two_pow_lt_int _ hn
  have hp0 := Nat.two_pow_pos (b + 3 + 1)
  unfold LLH_BUCKET_RANGE_HIGH_int
  rw [LLH_BUCKET_RANGE_HIGH_eq, LLH_SCALE_eq, int_shl_one _ hn, Option.some_bind]
  exact int_sub_natCast _ 1 (by omega) hp

theorem LLH_SLOT_RANGE_int_eq (b : Nat) (hb : b < LLH_BUCKETS) :
    LLH_SLOT_RANGE_int b = some (LLH_SLOT_RANGE b : Int) := by
  have hh := LLH_BUCKET_RANGE_HIGH_le b hb
  have hl := LLH_BUCKET_RANGE_LOW_le_high b
  unfold LLH_SLOT_RANGE_int
  rw [LLH_BUCKET_RANGE_HIGH_int_eq b hb, Option.some_bind, LLH_BUCKET_RANGE_LOW_int_eq b hb,
    Option.some_bind, int_sub_natCast _ _ hl (by omega), Option.some_bind]
  have e1 : ((1 : Nat) : Int) = 1 := rfl
  rw [← e1, int_add_natCast _ 1 (by omega), Option.some_bind]
  exact int_div_natCast _ LLH_SLOTS_PER_BUCKET (by norm_num) (by omega)

/-- C16: for every `b` in `0..B-1` the geometry macros evaluate in 32-bit `int`
arithmetic without overflow, to `LLH_BUCKET_RANGE_LOW(0) = 0`,
`LLH_BUCKET_RANGE_LOW(b) = 2 ^ (b + K)` for `b > 0`,
`LLH_BUCKET_RANGE_HIGH(b) = 2 ^ (b + K + 1) - 1`, with
`LLH_BUCKET_RANGE_LOW(b + 1) = LLH_BUCKET_RANGE_HIGH(b) + 1` for `b < B - 1`,
`LLH_SLOT_RANGE(b) ≥ 1` and
`S * LLH_SLOT_RANGE(b) = LLH_BUCKET_RANGE_HIGH(b) - LLH_BUCKET_RANGE_LOW(b) + 1` (the
division by `S` leaves no remainder). The `B * S` cells partition `[0, 2 ^ 27 - 1]`: every
value of that range lies in exactly one cell, and every cell lies in that range. -/
theorem LLH_geometry_tiles (b : Nat) (hb : b < LLH_BUCKETS) :
    LLH_BUCKET_RANGE_LOW_int b = some (LLH_BUCKET_RANGE_LOW b : Int) ∧
      LLH_BUCKET_RANGE_HIGH_int b = some (LLH_BUCKET_RANGE_HIGH b : Int) ∧
      LLH_SLOT_RANGE_int b = some (LLH_SLOT_RANGE b : Int) ∧
      LLH_BUCKET_RANGE_LOW 0 = 0 ∧
      (0 < b → LLH_BUCKET_RANGE_LOW b = 2 ^ (b + LLH_SCALE)) ∧
      LLH_BUCKET_RANGE_HIGH b = 2 ^ (b + LLH_SCALE + 1) - 1 ∧
      (b < LLH_BUCKETS - 1 → LLH_BUCKET_RANGE_LOW (b + 1) = LLH_BUCKET_RANGE_HIGH b + 1) ∧
      LLH_SLOT_RANGE b ≥ 1 ∧
      LLH_SLOTS_PER_BUCKET * LLH_SLOT_RANGE b =
        LLH_BUCKET_RANGE_HIGH b - LLH_BUCKET_RANGE_LOW b + 1 ∧
      (LLH_BUCKET_RANGE_HIGH b - LLH_BUCKET_RANGE_LOW b + 1) % LLH_SLOTS_PER_BUCKET = 0 ∧
      (∀ v, v ≤ 2 ^ 27 - 1 →
        ∃! p : Fin LLH_BUCKETS × Fin LLH_SLOTS_PER_BUCKET,
          LLH_BUCKET_RANGE_LOW p.1.val + p.2.val * LLH_SLOT_RANGE p.1.val ≤ v ∧
            v < LLH_BUCKET_RANGE_LOW p.1.val + (p.2.val + 1) * LLH_SLOT_RANGE p.1.val) ∧
      (∀ s v, s < LLH_SLOTS_PER_BUCKET →
        LLH_BUCKET_RANGE_LOW b + s * LLH_SLOT_RANGE b ≤ v →
        v < LLH_BUCKET_RANGE_LOW b + (s + 1) * LLH_SLOT_RANGE b → v ≤ 2 ^ 27 - 1) := by
  have htot := slot_range_total b
  have hw := LLH_SLOT_RANGE_pos b
  have hh := LLH_BUCKET_RANGE_HIGH_le b hb
  have hlh := LLH_BUCKET_RANGE_LOW_le_high b
  have hS : LLH_SLOTS_PER_BUCKET * LLH_SLOT_RANGE b =
      LLH_BUCKET_RANGE_HIGH b - LLH_BUCKET_RANGE_LOW b + 1 := by
    show 16 * LLH_SLOT_RANGE b = _
    omega
  refine ⟨LLH_BUCKET_RANGE_LOW_int_eq b hb, LLH_BUCKET_RANGE_HIGH_int_eq b hb,
    LLH_SLOT_RANGE_int_eq b hb, ?_, ?_, ?_, ?_, hw, hS, ?_, ?_, ?_⟩
  · rw [LLH_BUCKET_RANGE_LOW_eq]; rfl
  · intro h0
    rw [LLH_BUCKET_RANGE_LOW_eq, LLH_SCALE_eq, if_neg (by omega)]
  · rw [LLH_BUCKET_RANGE_HIGH_eq, LLH_SCALE_eq]
  · intro _
    rw [LLH_BUCKET_RANGE_LOW_eq, LLH_BUCKET_RANGE_HIGH_eq, if_neg (by omega)]
    have := Nat.two_pow_pos (b + 4)
    rw [show b + 1 + 3 = b + 4 by omega]
    omega
  · rw [← hS]
    exact Nat.mul_mod_right _ _
  · intro v hv
    have hv64 : v < 2 ^ 64 := by omega
    have hbk : llh_record_bucket v < LLH_BUCKETS :=
      (llh_record_bucket_lt_iff v hv64).2 (by omega)
    have hsl := llh_record_slot_lt v hv64
    refine ⟨(⟨_, hbk⟩, ⟨_, hsl⟩), llh_record_slot_bounds v hv64, ?_⟩
    rintro ⟨b', s'⟩ ⟨h1, h2⟩
    have hh := (hits_iff b'.val s'.val v hv64 s'.isLt).2 ⟨h1, h2⟩
    unfold hits at hh
    rw [decide_eq_true_iff] at hh
    exact Prod.ext (Fin.ext hh.1) (Fin.ext hh.2)
  · intro s v hs h1 h2
    have hle : (s + 1) * LLH_SLOT_RANGE b ≤ 16 * LLH_SLOT_RANGE b :=
      Nat.mul_le_mul_right _ (by unfold LLH_SLOTS_PER_BUCKET at hs; omega)
    omega

/-- Witness of `LLH_geometry_tiles`: the last bucket, whose bounds are `2 ^ 26` and
`2 ^ 27 - 1` and whose slots are `2 ^ 22` wide. -/
theorem LLH_geometry_tiles_witness :
    23 < LLH_BUCKETS ∧
      LLH_BUCKET_RANGE_LOW_int 23 = some (LLH_BUCKET_RANGE_LOW 23 : Int) ∧
      LLH_BUCKET_RANGE_HIGH_int 23 = some (LLH_BUCKET_RANGE_HIGH 23 : Int) ∧
      LLH_SLOT_RANGE_int 23 = some (LLH_SLOT_RANGE 23 : Int) ∧
      LLH_BUCKET_RANGE_LOW 23 = 2 ^ 26 ∧ LLH_BUCKET_RANGE_HIGH 23 = 2 ^ 27 - 1 ∧
      LLH_SLOT_RANGE 23 = 2 ^ 22 :=
  have h := LLH_geometry_tiles 23 (by decide)
  ⟨by decide, h.1, h.2.1, h.2.2.1, by decide, by decide, by decide⟩

/-! ## Order and commutation -/

theorem llh_record_bucket_mono (v1 v2 : Nat) (h12 : v1 ≤ v2) (hv2 : v2 < 2 ^ 64) :
    llh_record_bucket v1 ≤ llh_record_bucket v2 := by
  obtain ⟨hl1, _⟩ := llh_record_bucket_range v1 (by omega)
  obtain ⟨_, hh2⟩ := llh_record_bucket_range v2 hv2
  by_contra hcon
  have := high_lt_low (llh_record_bucket v2) (llh_record_bucket v1) (by omega)
  omega

/-- C17: the quantization of `llh_record` preserves order. For all 64-bit values
`v1 ≤ v2` the computed bucket of `v1` is at most that of `v2`, so `v2` overflows when `v1`
does; and when `v2 ≤ high(B-1)`, the pair (bucket, slot) of `v1` is lexicographically at
most the pair of `v2`. -/
theorem llh_record_order_preserving (v1 v2 : Nat) (h12 : v1 ≤ v2) (hv2 : v2 < 2 ^ 64) :
    llh_record_bucket v1 ≤ llh_record_bucket v2 ∧
      (¬ llh_record_bucket v1 < LLH_BUCKETS → ¬ llh_record_bucket v2 < LLH_BUCKETS) ∧
      (v2 ≤ LLH_BUCKET_RANGE_HIGH (LLH_BUCKETS - 1) →
        llh_record_bucket v1 < LLH_BUCKETS ∧ llh_record_bucket v2 < LLH_BUCKETS ∧
        (llh_record_bucket v1 < llh_record_bucket v2 ∨
          (llh_record_bucket v1 = llh_record_bucket v2 ∧
            llh_record_slot v1 (llh_record_bucket v1) ≤
              llh_record_slot v2 (llh_record_bucket v2)))) := by
  have hmono := llh_record_bucket_mono v1 v2 h12 hv2
  refine ⟨hmono, fun h1 h2 => h1 (by omega), ?_⟩
  intro hhigh
  obtain ⟨h27, _⟩ := lt_of_le_high_last v2 hhigh
  have hb2 := (llh_record_bucket_lt_iff v2 hv2).2 h27
  refine ⟨by omega, hb2, ?_⟩
  rcases Nat.lt_or_ge (llh_record_bucket v1) (llh_record_bucket v2) with h | h
  · exact Or.inl h
  · have e : llh_record_bucket v1 = llh_record_bucket v2 := by omega
    refine Or.inr ⟨e, ?_⟩
    rw [(llh_record_slot_range v1 (by omega)).1, (llh_record_slot_range v2 hv2).1, e]
    exact Nat.div_le_div_right (by omega)

/-- Witness of `llh_record_order_preserving`: 31 is the last value of bucket 1 and 32 the
first of bucket 2. -/
theorem llh_record_order_preserving_witness :
    31 ≤ 32 ∧ 32 < 2 ^ 64 ∧ llh_record_bucket 31 ≤ llh_record_bucket 32 ∧
      llh_record_bucket 31 = 1 ∧ llh_record_bucket 32 = 2 ∧
      llh_record_slot 31 (llh_record_bucket 31) = 15 ∧
      llh_record_slot 32 (llh_record_bucket 32) = 0 :=
  ⟨by decide, by norm_num,
    (llh_record_order_preserving 31 32 (by decide) (by norm_num)).1,
    by decide, by decide, by decide, by decide⟩

theorem llh_t_ext (h h' : llh_t) (hv : ∀ b s, h.v b s = h'.v b s)
    (ho : h.overflows = h'.overflows) : h = h' := by
  cases h; cases h'
  simp only [llh_t.mk.injEq]
  exact ⟨funext fun b => funext fun s => hv b s, ho⟩

theorem llh_record_right_comm (h : llh_t) (a b : Nat) :
    llh_record (llh_record h a) b = llh_record (llh_record h b) a := by
  apply llh_t_ext
  · intro b' s'
    simp only [llh_record_v]
    split <;> split <;> rfl
  · simp only [llh_record_overflows]
    split <;> split <;> rfl

/-- C18: `llh_record` calls commute. For every histogram state and all values `a` and `b`,
recording `a` then `b` gives the same state as recording `b` then `a`; and two runs that
record the same values in different orders end in the same state. -/
theorem llh_record_comm (h : llh_t) (a b : Nat) (vs ws : List Nat) (hp : vs.Perm ws) :
    llh_record (llh_record h a) b = llh_record (llh_record h b) a ∧
      llh_record_all h vs = llh_record_all h ws :=
  ⟨llh_record_right_comm h a b,
    List.Perm.foldl_eq' hp (fun x _ y _ z => llh_record_right_comm z x y) h⟩

/-- Witness of `llh_record_comm`: the values 5 and `2 ^ 27`, and two orders of the
values 1, 2, 3. -/
theorem llh_record_comm_witness :
    [1, 2, 3].Perm [3, 1, 2] ∧
      llh_record (llh_record LLH_INIT 5) (2 ^ 27) = llh_record (llh_record LLH_INIT (2 ^ 27)) 5 ∧
      llh_record_all LLH_INIT [1, 2, 3] = llh_record_all LLH_INIT [3, 1, 2] :=
  have hp : [1, 2, 3].Perm [3, 1, 2] := by decide
  ⟨hp, llh_record_comm LLH_INIT 5 (2 ^ 27) [1, 2, 3] [3, 1, 2] hp⟩

/-! ## The two increment modes -/

theorem _incrl_int32_t_eq (a : Nat) (ha : a < 2 ^ 32) : _incrl_int32_t a = (a + 1) % 2 ^ 32 := by
  unfold _incrl_int32_t uint32_of_int32 incl int32_of_uint32
  split <;> split <;> omega

/-- C19: in sequential execution the mode with `LLH_UNSAFE_INCREMENT` (`++` on the
`uint32_t` counter) and the default mode (`lock; incl` on the same counter through an
`int32_t` pointer) are equivalent: for every histogram state with 32-bit counters and
every value, `llh_record` gives the same state in both modes. On a counter that holds
`2 ^ 31 - 1` both give `2 ^ 31`, and on a counter that holds `2 ^ 32 - 1` both give 0. -/
theorem llh_record_mode_equiv (h : llh_t) (hwf : h.wf) (v : Nat) :
    llh_record_mode true h v = llh_record_mode false h v ∧
      llh_record_mode false h v = llh_record h v ∧
      (∀ a, a < 2 ^ 32 → _incrl_int32_t a = uint32_t_incr a) ∧
      _incrl_int32_t (2 ^ 31 - 1) = 2 ^ 31 ∧ uint32_t_incr (2 ^ 31 - 1) = 2 ^ 31 ∧
      _incrl_int32_t (2 ^ 32 - 1) = 0 ∧ uint32_t_incr (2 ^ 32 - 1) = 0 := by
  have hi : ∀ a, a < 2 ^ 32 → _incrl_int32_t a = uint32_t_incr a :=
    fun a ha => _incrl_int32_t_eq a ha
  refine ⟨?_, ?_, hi, by decide, by decide, by decide, by decide⟩
  · unfold llh_record_mode
    simp only [if_true, Bool.false_eq_true, if_false]
    split
    · congr 1
      funext b s
      split
      · exact (hi _ (hwf.1 b s)).symm
      · rfl
    · rw [hi _ hwf.2]
  · unfold llh_record_mode llh_record
    simp only [Bool.false_eq_true, if_false]
    split
    · congr 1
      funext b s
      split
      · exact _incrl_int32_t_eq _ (hwf.1 b s)
      · rfl
    · rw [_incrl_int32_t_eq _ hwf.2]
      rfl

theorem llh_boundary_wf : llh_boundary.wf := by
  constructor
  · intro b s
    simp only [llh_boundary]
    split <;> norm_num
  · simp [llh_boundary]

/-- Witness of `llh_record_mode_equiv`: in `llh_boundary` the value 0 targets the cell
that holds `2 ^ 31 - 1` and the value `2 ^ 27` targets `overflows`, which holds
`2 ^ 32 - 1`. -/
theorem llh_record_mode_equiv_witness :
    llh_boundary.wf ∧
      llh_record_mode true llh_boundary 0 = llh_record_mode false llh_boundary 0 ∧
      llh_record_mode true llh_boundary (2 ^ 27) = llh_record_mode false llh_boundary (2 ^ 27) ∧
      (llh_record_mode false llh_boundary 0).v 0 0 = 2 ^ 31 ∧
      (llh_record_mode false llh_boundary (2 ^ 27)).overflows = 0 :=
  ⟨llh_boundary_wf, (llh_record_mode_equiv llh_boundary llh_boundary_wf 0).1,
    (llh_record_mode_equiv llh_boundary llh_boundary_wf (2 ^ 27)).1, by decide, by decide⟩

end LLH
